import Mathlib

/-! Sorting comparison: merge sort and quick sort variants.

A shallow embedding of `main.go`.  Go slices of `int` are lists of integers
(the elements are only compared, never used in arithmetic, so their width
plays no role).  Lengths and slice bounds are natural numbers; the indices
`low`, `high` of the in-place quick sort are integers, because the recursion
passes `pivot-1`, which may be `-1`.

An operation that can panic at run time (index or slice bounds out of range,
integer division by zero) returns `Option`, `none` standing for the panic.

Goroutines that hand one value to their parent over an unbuffered channel are
embedded as the call they perform; the in-place quick sort runs its forked
branch first and its synchronous branch second.
-/

namespace SortingComparison

/-! ## Merge -/

/-- The `for i < len(left) && j < len(right)` loop of `merge`: the state is
the result built so far and the two cursors. -/
def mergeLoop (left right : List Int) (result : List Int) (i j : Nat) :
    List Int × Nat × Nat :=
  if h : i < left.length ∧ j < right.length then
    if left[i] < right[j] then
      mergeLoop left right (result ++ [left[i]]) (i + 1) j
    else
      mergeLoop left right (result ++ [right[j]]) i (j + 1)
  else
    (result, i, j)
termination_by (left.length - i) + (right.length - j)

/-- `merge(left, right)`: the loop, then `left[i:]` and `right[j:]` appended. -/
def merge (left right : List Int) : List Int :=
  let st := mergeLoop left right [] 0 0
  (st.1 ++ left.drop st.2.1) ++ right.drop st.2.2

/-! ## Merge sort, sequential and with one goroutine per recursive call -/

/-- `mergeSort(arr)`. -/
def mergeSort (arr : List Int) : List Int :=
  if h : arr.length ≤ 1 then
    arr
  else
    let middle := arr.length / 2
    let left := mergeSort (arr.take middle)
    let right := mergeSort (arr.drop middle)
    merge left right
termination_by arr.length
decreasing_by
  all_goals simp_wf
  all_goals omega

/-- `mergeSortConcorrente(arr)`: each half is sorted by a goroutine that sends
its result on its own channel; the parent receives both and merges. -/
def mergeSortConcorrente (arr : List Int) : List Int :=
  if h : arr.length ≤ 1 then
    arr
  else
    let middle := arr.length / 2
    let left := mergeSortConcorrente (arr.take middle)
    let right := mergeSortConcorrente (arr.drop middle)
    merge left right
termination_by arr.length
decreasing_by
  all_goals simp_wf
  all_goals omega

/-! ## Bounded concurrent merge sort -/

/-- The slice expression `arr[start:end_]`; it panics unless
`start ≤ end_ ≤ cap(arr)`.  Every `end_` passed below is at most `len(arr)`,
so the capacity never decides. -/
def slice (arr : List Int) (start end_ : Nat) : Option (List Int) :=
  if start ≤ end_ ∧ end_ ≤ arr.length then
    some ((arr.drop start).take (end_ - start))
  else
    none

/-- The loop of `chunkArray`; the first argument counts the iterations left,
`i` is the loop variable. -/
def chunkLoop (arr : List Int) (chunkSize : Nat) : Nat → Nat → Option (List (List Int))
  | 0, _ => some []
  | n + 1, i =>
    let start := i * chunkSize
    let end_ := if (i + 1) * chunkSize > arr.length then arr.length else (i + 1) * chunkSize
    match slice arr start end_ with
    | none => none
    | some chunk =>
      match chunkLoop arr chunkSize n (i + 1) with
      | none => none
      | some chunks => some (chunk :: chunks)

/-- `chunkArray(arr, numChunks)`; the division panics for `numChunks = 0`. -/
def chunkArray (arr : List Int) (numChunks : Nat) : Option (List (List Int)) :=
  if numChunks = 0 then
    none
  else
    let chunkSize := (arr.length + numChunks - 1) / numChunks
    chunkLoop arr chunkSize numChunks 0

/-- `mergeSortedChunks(chunks)`. -/
def mergeSortedChunks (chunks : List (List Int)) : List Int :=
  match chunks with
  | [] => []
  | first :: rest => rest.foldl merge first

/-- `mergeSortConcurrent(arr)`, with `runtime.NumCPU()` as the parameter
`numCores`: goroutine `i` sends `mergeSort(chunks[i])` on `results[i]`, the
parent receives them in index order. -/
def mergeSortConcurrent (arr : List Int) (numCores : Nat) : Option (List Int) :=
  if arr.length ≤ 1 then
    some arr
  else
    match chunkArray arr numCores with
    | none => none
    | some chunks => some (mergeSortedChunks (chunks.map mergeSort))

/-! ## Quick sort with three buckets -/

/-- One iteration of the `range arr` loop of `quickSort`: the state is
`(left, equal, right)`. -/
def bucketStep (pivot : Int) (st : List Int × List Int × List Int) (value : Int) :
    List Int × List Int × List Int :=
  if value < pivot then
    (st.1 ++ [value], st.2.1, st.2.2)
  else if value = pivot then
    (st.1, st.2.1 ++ [value], st.2.2)
  else
    (st.1, st.2.1, st.2.2 ++ [value])

/-- The whole `range arr` loop, from three empty buckets. -/
def buckets (pivot : Int) (arr : List Int) : List Int × List Int × List Int :=
  arr.foldl (bucketStep pivot) ([], [], [])

theorem bucketStep_foldl (pivot : Int) (arr : List Int) (st : List Int × List Int × List Int) :
    arr.foldl (bucketStep pivot) st =
      (st.1 ++ arr.filter (fun v => decide (v < pivot)),
       st.2.1 ++ arr.filter (fun v => decide (v = pivot)),
       st.2.2 ++ arr.filter (fun v => decide (pivot < v))) := by
  induction arr generalizing st with
  | nil => simp
  | cons v vs ih =>
    rw [List.foldl_cons, ih]
    unfold bucketStep
    by_cases h1 : v < pivot
    · have h2 : ¬ v = pivot := by omega
      have h3 : ¬ pivot < v := by omega
      simp [h1, h2, h3]
    · by_cases h2 : v = pivot
      · have h3 : ¬ pivot < v := by omega
        simp [h1, h2]
      · have h3 : pivot < v := by omega
        simp [h1, h2, h3]

theorem buckets_eq (pivot : Int) (arr : List Int) :
    buckets pivot arr =
      (arr.filter (fun v => decide (v < pivot)),
       arr.filter (fun v => decide (v = pivot)),
       arr.filter (fun v => decide (pivot < v))) := by
  simp [buckets, bucketStep_foldl]

theorem filter_lt_length_of_mem (p : Int → Bool) (arr : List Int) (x : Int)
    (hx : x ∈ arr) (hp : p x = false) : (arr.filter p).length < arr.length := by
  induction arr with
  | nil => simp at hx
  | cons v vs ih =>
    rcases List.mem_cons.mp hx with h | h
    · subst h
      simp only [List.filter_cons, hp, List.length_cons]
      have := List.length_filter_le p vs
      simp
      omega
    · have := ih h
      by_cases hv : p v = true
      · simp [List.filter_cons, hv]
        omega
      · simp [List.filter_cons, hv]
        omega

theorem buckets_left_lt (arr : List Int) (hm : arr.length / 2 < arr.length) :
    (buckets arr[arr.length / 2] arr).1.length < arr.length := by
  rw [buckets_eq]
  exact filter_lt_length_of_mem _ arr arr[arr.length / 2] (List.getElem_mem _)
    (decide_eq_false (lt_irrefl _))

theorem buckets_right_lt (arr : List Int) (hm : arr.length / 2 < arr.length) :
    (buckets arr[arr.length / 2] arr).2.2.length < arr.length := by
  rw [buckets_eq]
  exact filter_lt_length_of_mem _ arr arr[arr.length / 2] (List.getElem_mem _)
    (decide_eq_false (lt_irrefl _))

/-- `quickSort(arr)`. -/
def quickSort (arr : List Int) : List Int :=
  if h : arr.length ≤ 1 then
    arr
  else
    let pivot := arr[arr.length / 2]
    let st := buckets pivot arr
    let left := quickSort st.1
    let right := quickSort st.2.2
    (left ++ st.2.1) ++ right
termination_by arr.length
decreasing_by
  · exact buckets_left_lt arr _
  · exact buckets_right_lt arr _

/-- `quickSortConcorrente(arr)`: both buckets are sorted by goroutines whose
results the parent receives before concatenating. -/
def quickSortConcorrente (arr : List Int) : List Int :=
  if h : arr.length ≤ 1 then
    arr
  else
    let pivot := arr[arr.length / 2]
    let st := buckets pivot arr
    let leftSorted := quickSortConcorrente st.1
    let rightSorted := quickSortConcorrente st.2.2
    (leftSorted ++ st.2.1) ++ rightSorted
termination_by arr.length
decreasing_by
  · exact buckets_left_lt arr _
  · exact buckets_right_lt arr _

/-! ## In-place quick sort -/

/-- The index expression `arr[k]`; it panics unless `0 ≤ k < len(arr)`. -/
def idx (arr : List Int) (k : Int) : Option Int :=
  if 0 ≤ k then arr[k.toNat]? else none

/-- The assignment `arr[a], arr[b] = arr[b], arr[a]`: both operands are read
first (either read may panic), then `arr[a]` and `arr[b]` are written. -/
def swap (arr : List Int) (a b : Int) : Option (List Int) :=
  match idx arr a, idx arr b with
  | some x, some y => some ((arr.set a.toNat y).set b.toNat x)
  | _, _ => none

/-- The `for j := low; j < high; j++` loop of `partition`: the state is the
array, the boundary `i` and the loop variable `j`. -/
def partitionLoop (pivot high : Int) (arr : List Int) (i j : Int) :
    Option (List Int × Int) :=
  if j < high then
    match idx arr j with
    | none => none
    | some aj =>
      if aj < pivot then
        match swap arr i j with
        | none => none
        | some arr1 => partitionLoop pivot high arr1 (i + 1) (j + 1)
      else
        partitionLoop pivot high arr i (j + 1)
  else
    some (arr, i)
termination_by (high - j).toNat
decreasing_by
  all_goals simp_wf
  all_goals omega

/-- `partition(arr, low, high)`: the array after the call and the returned
index. -/
def partition (arr : List Int) (low high : Int) : Option (List Int × Int) :=
  match idx arr high with
  | none => none
  | some pivot =>
    match partitionLoop pivot high arr low low with
    | none => none
    | some (arr1, i) =>
      match swap arr1 i high with
      | none => none
      | some arr2 => some (arr2, i)

theorem partitionLoop_bounds (pivot high : Int) (n : Nat) :
    ∀ (arr : List Int) (i j : Int) (arr1 : List Int) (i1 : Int),
      (high - j).toNat = n →
      partitionLoop pivot high arr i j = some (arr1, i1) →
      i ≤ i1 ∧ (j ≤ high → i1 + j ≤ i + high) := by
  induction n with
  | zero =>
    intro arr i j arr1 i1 hn h
    rw [partitionLoop] at h
    have hj : ¬ j < high := by omega
    simp only [hj, if_false, Option.some.injEq, Prod.mk.injEq] at h
    omega
  | succ n ih =>
    intro arr i j arr1 i1 hn h
    rw [partitionLoop] at h
    have hj : j < high := by omega
    simp only [hj, if_true] at h
    cases haj : idx arr j with
    | none => simp [haj] at h
    | some aj =>
      simp only [haj] at h
      by_cases hlt : aj < pivot
      · simp only [hlt, if_true] at h
        cases hsw : swap arr i j with
        | none => simp [hsw] at h
        | some arr2 =>
          simp only [hsw] at h
          have := ih arr2 (i + 1) (j + 1) arr1 i1 (by omega) h
          omega
      · simp only [hlt, if_false] at h
        have := ih arr i (j + 1) arr1 i1 (by omega) h
        omega

theorem partition_bounds (arr : List Int) (low high : Int) (arr1 : List Int) (p : Int)
    (hlh : low ≤ high) (h : partition arr low high = some (arr1, p)) :
    low ≤ p ∧ p ≤ high := by
  unfold partition at h
  cases hp : idx arr high with
  | none => simp [hp] at h
  | some pivot =>
    simp only [hp] at h
    cases hl : partitionLoop pivot high arr low low with
    | none => simp [hl] at h
    | some r =>
      obtain ⟨arr2, i⟩ := r
      simp only [hl] at h
      cases hs : swap arr2 i high with
      | none => simp [hs] at h
      | some arr3 =>
        simp only [hs, Option.some.injEq, Prod.mk.injEq] at h
        have := partitionLoop_bounds pivot high _ arr low low arr2 i rfl hl
        omega

/-- `parallelQuickSort(arr, low, high)`: the array after the call.  The
goroutine sorting `[low, pivot-1]` is run before the synchronous call on
`[pivot+1, high]`; the parent then waits on `done`. -/
def parallelQuickSort (arr : List Int) (low high : Int) : Option (List Int) :=
  if hlh : low < high then
    match hp : partition arr low high with
    | none => none
    | some (arr1, pivot) =>
      match parallelQuickSort arr1 low (pivot - 1) with
      | none => none
      | some arr2 => parallelQuickSort arr2 (pivot + 1) high
  else
    some arr
termination_by (high - low).toNat
decreasing_by
  · have := partition_bounds arr low high arr1 pivot (by omega) hp
    simp_wf
    omega
  · have := partition_bounds arr low high arr1 pivot (by omega) hp
    simp_wf
    omega

/-! ## Proof-side definitions -/

/-- What the loop of `merge` and the two final appends produce from the
suffixes `left[i:]` and `right[j:]` still to be read. -/
def mergeSuffixes : List Int → List Int → List Int
  | [], right => right
  | a :: left, [] => a :: left
  | a :: left, b :: right =>
    if a < b then a :: mergeSuffixes left (b :: right)
    else b :: mergeSuffixes (a :: left) right
termination_by left right => left.length + right.length

/-! ## One iteration of the loop of `merge` -/

/-- The body of the `for` loop of `merge`, run once with both cursors in
range: the result, `i` and `j` after the iteration. -/
def mergeStep (left right : List Int) (result : List Int) (i j : Nat)
    (h : i < left.length ∧ j < right.length) : List Int × Nat × Nat :=
  if left[i] < right[j] then
    (result ++ [left[i]], i + 1, j)
  else
    (result ++ [right[j]], i, j + 1)

/-! ## In-place quick sort with a depth counter -/

/-- `parallelQuickSort(arr, low, high)` with a ghost counter: besides the
array after the call, the depth of nested calls that reach `partition` (0 for
a call with `low ≥ high`, otherwise one more than the deeper of the two
recursive calls). -/
def parallelQuickSortDepth (arr : List Int) (low high : Int) : Option (List Int × Nat) :=
  if hlh : low < high then
    match hp : partition arr low high with
    | none => none
    | some (arr1, pivot) =>
      match parallelQuickSortDepth arr1 low (pivot - 1) with
      | none => none
      | some (arr2, d1) =>
        match parallelQuickSortDepth arr2 (pivot + 1) high with
        | none => none
        | some (arr3, d2) => some (arr3, 1 + max d1 d2)
  else
    some (arr, 0)
termination_by (high - low).toNat
decreasing_by
  · have := partition_bounds arr low high arr1 pivot (by omega) hp
    simp_wf
    omega
  · have := partition_bounds arr low high arr1 pivot (by omega) hp
    simp_wf
    omega

/-! # Theorems -/

/-! ## Merge -/

theorem mergeSuffixes_nil_right (left : List Int) : mergeSuffixes left [] = left := by
  cases left <;> simp [mergeSuffixes]

theorem mergeLoop_suffixes (left right : List Int) (n : Nat) :
    ∀ (result : List Int) (i j : Nat), (left.length - i) + (right.length - j) = n →
      ((mergeLoop left right result i j).1 ++ left.drop (mergeLoop left right result i j).2.1)
          ++ right.drop (mergeLoop left right result i j).2.2
        = result ++ mergeSuffixes (left.drop i) (right.drop j) := by
  induction n using Nat.strong_induction_on with
  | _ n ih =>
    intro result i j hn
    rw [mergeLoop]
    by_cases h : i < left.length ∧ j < right.length
    · obtain ⟨hi, hj⟩ := h
      have hl : left.drop i = left[i] :: left.drop (i + 1) := List.drop_eq_getElem_cons hi
      have hr : right.drop j = right[j] :: right.drop (j + 1) := List.drop_eq_getElem_cons hj
      simp only [hi, hj, and_self, dite_true]
      by_cases hlt : left[i] < right[j]
      · simp only [hlt, if_true]
        have e : mergeSuffixes (left.drop i) (right.drop j)
            = left[i] :: mergeSuffixes (left.drop (i + 1)) (right.drop j) := by
          conv_lhs => rw [hl, hr, mergeSuffixes]
          simp only [hlt, if_true]
          rw [← hr]
        rw [ih _ (by omega) _ (i + 1) j rfl, e]
        simp
      · simp only [hlt, if_false]
        have e : mergeSuffixes (left.drop i) (right.drop j)
            = right[j] :: mergeSuffixes (left.drop i) (right.drop (j + 1)) := by
          conv_lhs => rw [hl, hr, mergeSuffixes]
          simp only [hlt, if_false]
          rw [← hl]
        rw [ih _ (by omega) _ i (j + 1) rfl, e]
        simp
    · simp only [h, dite_false]
      by_cases hi : i < left.length
      · have hj : right.length ≤ j := by
          by_contra hc
          exact h ⟨hi, by omega⟩
        rw [List.drop_of_length_le hj, mergeSuffixes_nil_right]
        simp
      · rw [List.drop_of_length_le (by omega : left.length ≤ i)]
        simp [mergeSuffixes]

theorem merge_eq_mergeSuffixes (left right : List Int) :
    merge left right = mergeSuffixes left right := by
  have := mergeLoop_suffixes left right _ [] 0 0 rfl
  simpa [merge] using this

theorem mergeSuffixes_perm (left right : List Int) :
    (mergeSuffixes left right).Perm (left ++ right) := by
  induction left generalizing right with
  | nil => simp [mergeSuffixes]
  | cons a left ihl =>
    induction right with
    | nil => simp [mergeSuffixes]
    | cons b right ihr =>
      rw [mergeSuffixes]
      by_cases hlt : a < b
      · simp only [hlt, if_true, List.cons_append]
        exact (ihl (b :: right)).cons a
      · simp only [hlt, if_false]
        refine (ihr.cons b).trans ?_
        exact (@List.perm_middle Int b (a :: left) right).symm

theorem mergeSuffixes_sorted (left right : List Int)
    (hl : left.Sorted (fun a b => a ≤ b)) (hr : right.Sorted (fun a b => a ≤ b)) :
    (mergeSuffixes left right).Sorted (fun a b => a ≤ b) := by
  induction left generalizing right with
  | nil => simpa [mergeSuffixes] using hr
  | cons a left ihl =>
    induction right with
    | nil => simpa [mergeSuffixes] using hl
    | cons b right ihr =>
      rw [mergeSuffixes]
      have hl1 := List.sorted_cons.mp hl
      have hr1 := List.sorted_cons.mp hr
      by_cases hlt : a < b
      · simp only [hlt, if_true]
        refine List.sorted_cons.mpr ⟨?_, ihl (b :: right) hl1.2 hr⟩
        intro c hc
        have hc1 := (mergeSuffixes_perm left (b :: right)).mem_iff.mp hc
        rcases List.mem_append.mp hc1 with h | h
        · exact hl1.1 c h
        · rcases List.mem_cons.mp h with h | h
          · omega
          · have := hr1.1 c h
            omega
      · simp only [hlt, if_false]
        refine List.sorted_cons.mpr ⟨?_, ihr hr1.2⟩
        intro c hc
        have hc1 := (mergeSuffixes_perm (a :: left) right).mem_iff.mp hc
        rcases List.mem_append.mp hc1 with h | h
        · rcases List.mem_cons.mp h with h | h
          · omega
          · have := hl1.1 c h
            omega
        · exact hr1.1 c h

theorem merge_perm (left right : List Int) : (merge left right).Perm (left ++ right) := by
  rw [merge_eq_mergeSuffixes]
  exact mergeSuffixes_perm left right

theorem merge_sorted (left right : List Int)
    (hl : left.Sorted (fun a b => a ≤ b)) (hr : right.Sorted (fun a b => a ≤ b)) :
    (merge left right).Sorted (fun a b => a ≤ b) := by
  rw [merge_eq_mergeSuffixes]
  exact mergeSuffixes_sorted left right hl hr

/-- C5: merging two non-decreasing sequences gives a non-decreasing sequence
that is a permutation of `left ++ right` and has length
`len(left) + len(right)`. -/
theorem merge_sorted_perm_length (left right : List Int)
    (hl : left.Sorted (fun a b => a ≤ b)) (hr : right.Sorted (fun a b => a ≤ b)) :
    (merge left right).Sorted (fun a b => a ≤ b) ∧
      (merge left right).Perm (left ++ right) ∧
      (merge left right).length = left.length + right.length :=
  ⟨merge_sorted left right hl hr, merge_perm left right, by
    simpa using (merge_perm left right).length_eq⟩

theorem merge_sorted_perm_length_witness :
    ([1, 3, 3] : List Int).Sorted (fun a b => a ≤ b) ∧
      ([2, 3, 4] : List Int).Sorted (fun a b => a ≤ b) ∧
      ((merge [1, 3, 3] [2, 3, 4]).Sorted (fun a b => a ≤ b) ∧
        (merge [1, 3, 3] [2, 3, 4]).Perm ([1, 3, 3] ++ [2, 3, 4]) ∧
        (merge [1, 3, 3] [2, 3, 4]).length = [1, 3, 3].length + [2, 3, 4].length) :=
  ⟨by decide, by decide, merge_sorted_perm_length [1, 3, 3] [2, 3, 4] (by decide) (by decide)⟩

/-! ## Merge sort -/

theorem mergeSort_sorted_perm (n : Nat) :
    ∀ arr : List Int, arr.length = n →
      (mergeSort arr).Sorted (fun a b => a ≤ b) ∧ (mergeSort arr).Perm arr := by
  induction n using Nat.strong_induction_on with
  | _ n ih =>
    intro arr hn
    rw [mergeSort]
    by_cases h : arr.length ≤ 1
    · simp only [h, dite_true]
      refine ⟨?_, List.Perm.refl _⟩
      match arr, h with
      | [], _ => exact List.sorted_nil
      | [a], _ => exact List.sorted_singleton a
    · simp only [h, dite_false]
      have hl := ih (arr.take (arr.length / 2)).length (by simp; omega) _ rfl
      have hr := ih (arr.drop (arr.length / 2)).length (by simp; omega) _ rfl
      refine ⟨merge_sorted _ _ hl.1 hr.1, ?_⟩
      refine (merge_perm _ _).trans ?_
      have := List.Perm.append hl.2 hr.2
      rwa [List.take_append_drop] at this

theorem mergeSortConcorrente_eq (n : Nat) :
    ∀ arr : List Int, arr.length = n → mergeSortConcorrente arr = mergeSort arr := by
  induction n using Nat.strong_induction_on with
  | _ n ih =>
    intro arr hn
    rw [mergeSortConcorrente, mergeSort]
    by_cases h : arr.length ≤ 1
    · simp only [h, dite_true]
    · simp only [h, dite_false]
      rw [ih (arr.take (arr.length / 2)).length (by simp; omega) _ rfl,
        ih (arr.drop (arr.length / 2)).length (by simp; omega) _ rfl]

/-- C1: for every sequence `S`, `mergeSort(S)` and `mergeSortConcorrente(S)`
are non-decreasing, are permutations of `S` and have the length of `S`. -/
theorem mergeSort_correct (S : List Int) :
    ((mergeSort S).Sorted (fun a b => a ≤ b) ∧ (mergeSort S).Perm S ∧
        (mergeSort S).length = S.length) ∧
      ((mergeSortConcorrente S).Sorted (fun a b => a ≤ b) ∧
        (mergeSortConcorrente S).Perm S ∧
        (mergeSortConcorrente S).length = S.length) := by
  have h := mergeSort_sorted_perm S.length S rfl
  rw [mergeSortConcorrente_eq S.length S rfl]
  exact ⟨⟨h.1, h.2, h.2.length_eq⟩, ⟨h.1, h.2, h.2.length_eq⟩⟩

/-! ## Quick sort with three buckets -/

theorem three_filters_perm (pivot : Int) (arr : List Int) :
    ((arr.filter (fun v => decide (v < pivot)) ++ arr.filter (fun v => decide (v = pivot)))
        ++ arr.filter (fun v => decide (pivot < v))).Perm arr := by
  induction arr with
  | nil => simp
  | cons v vs ih =>
    by_cases h1 : v < pivot
    · have h2 : ¬ v = pivot := by omega
      have h3 : ¬ pivot < v := by omega
      simp only [List.filter_cons, h1, h2, h3, decide_True, decide_False, if_true, if_false,
        Bool.false_eq_true, List.cons_append]
      exact ih.cons v
    · by_cases h2 : v = pivot
      · subst h2
        have h3 : ¬ v < v := lt_irrefl v
        simp only [List.filter_cons, h3, decide_True, decide_False, if_true, if_false,
          Bool.false_eq_true]
        refine List.Perm.trans ?_ (ih.cons v)
        simp only [List.append_assoc]
        exact List.perm_middle
      · have h3 : pivot < v := by omega
        simp only [List.filter_cons, h1, h2, h3, decide_True, decide_False, if_true, if_false,
          Bool.false_eq_true]
        refine List.Perm.trans ?_ (ih.cons v)
        exact List.perm_middle

theorem quickSort_unfold (arr : List Int) (h : ¬ arr.length ≤ 1)
    (hm : arr.length / 2 < arr.length) :
    quickSort arr =
      (quickSort (arr.filter (fun v => decide (v < arr[arr.length / 2])))
          ++ arr.filter (fun v => decide (v = arr[arr.length / 2])))
        ++ quickSort (arr.filter (fun v => decide (arr[arr.length / 2] < v))) := by
  rw [quickSort]
  simp only [h, dite_false, buckets_eq]

theorem quickSort_short (arr : List Int) (h : arr.length ≤ 1) : quickSort arr = arr := by
  rw [quickSort]
  simp only [h, dite_true]

theorem quickSort_sorted_perm (n : Nat) :
    ∀ arr : List Int, arr.length = n →
      (quickSort arr).Sorted (fun a b => a ≤ b) ∧ (quickSort arr).Perm arr := by
  induction n using Nat.strong_induction_on with
  | _ n ih =>
    intro arr hn
    by_cases h : arr.length ≤ 1
    · rw [quickSort_short arr h]
      refine ⟨?_, List.Perm.refl _⟩
      match arr, h with
      | [], _ => exact List.sorted_nil
      | [a], _ => exact List.sorted_singleton a
    · have hm : arr.length / 2 < arr.length := by omega
      rw [quickSort_unfold arr h hm]
      have hmem : arr[arr.length / 2] ∈ arr := List.getElem_mem _
      have hlt := filter_lt_length_of_mem (fun v => decide (v < arr[arr.length / 2])) arr
        arr[arr.length / 2] hmem (decide_eq_false (lt_irrefl _))
      have hgt := filter_lt_length_of_mem (fun v => decide (arr[arr.length / 2] < v)) arr
        arr[arr.length / 2] hmem (decide_eq_false (lt_irrefl _))
      have hl := ih _ (by omega) _ (rfl : (arr.filter
        (fun v => decide (v < arr[arr.length / 2]))).length = _)
      have hr := ih _ (by omega) _ (rfl : (arr.filter
        (fun v => decide (arr[arr.length / 2] < v))).length = _)
      constructor
      · refine List.pairwise_append.mpr ⟨List.pairwise_append.mpr ⟨hl.1, ?_, ?_⟩, hr.1, ?_⟩
        · refine List.pairwise_iff_forall_sublist.mpr ?_
          intro a b hab
          have ha := hab.subset (List.mem_cons_self a [b])
          have hb := hab.subset (List.mem_cons_of_mem a (List.mem_singleton_self b))
          simp only [List.mem_filter, decide_eq_true_eq] at ha hb
          omega
        · intro a ha b hb
          have ha1 := hl.2.mem_iff.mp ha
          simp only [List.mem_filter, decide_eq_true_eq] at ha1 hb
          omega
        · intro a ha b hb
          have hb1 := hr.2.mem_iff.mp hb
          simp only [List.mem_filter, decide_eq_true_eq] at hb1
          rcases List.mem_append.mp ha with ha | ha
          · have ha1 := hl.2.mem_iff.mp ha
            simp only [List.mem_filter, decide_eq_true_eq] at ha1
            omega
          · simp only [List.mem_filter, decide_eq_true_eq] at ha
            omega
      · refine List.Perm.trans ?_ (three_filters_perm arr[arr.length / 2] arr)
        exact List.Perm.append (List.Perm.append hl.2 (List.Perm.refl _)) hr.2

theorem quickSortConcorrente_eq (n : Nat) :
    ∀ arr : List Int, arr.length = n → quickSortConcorrente arr = quickSort arr := by
  induction n using Nat.strong_induction_on with
  | _ n ih =>
    intro arr hn
    rw [quickSortConcorrente, quickSort]
    by_cases h : arr.length ≤ 1
    · simp only [h, dite_true]
    · simp only [h, dite_false]
      have hm : arr.length / 2 < arr.length := by omega
      rw [ih _ (by have := buckets_left_lt arr hm; omega) _ rfl,
        ih _ (by have := buckets_right_lt arr hm; omega) _ rfl]

/-- C2: for every sequence `S`, `quickSort(S)` and `quickSortConcorrente(S)`
are non-decreasing permutations of `S`, and when `S` has an element `pivot`
at the middle index `len(S)/2` each result is
`sort(less) ++ equal ++ sort(greater)` for the elements of `S` strictly less
than, equal to and strictly greater than `pivot`, in their order in `S`. -/
theorem quickSort_correct (S : List Int) :
    ((quickSort S).Sorted (fun a b => a ≤ b) ∧ (quickSort S).Perm S) ∧
      ((quickSortConcorrente S).Sorted (fun a b => a ≤ b) ∧
        (quickSortConcorrente S).Perm S) ∧
      ∀ pivot : Int, S[S.length / 2]? = some pivot →
        (buckets pivot S =
            (S.filter (fun v => decide (v < pivot)), S.filter (fun v => decide (v = pivot)),
              S.filter (fun v => decide (pivot < v)))) ∧
          quickSort S =
            (quickSort (S.filter (fun v => decide (v < pivot)))
                ++ S.filter (fun v => decide (v = pivot)))
              ++ quickSort (S.filter (fun v => decide (pivot < v))) ∧
          quickSortConcorrente S =
            (quickSortConcorrente (S.filter (fun v => decide (v < pivot)))
                ++ S.filter (fun v => decide (v = pivot)))
              ++ quickSortConcorrente (S.filter (fun v => decide (pivot < v))) := by
  have h := quickSort_sorted_perm S.length S rfl
  have hc : ∀ l : List Int, quickSortConcorrente l = quickSort l :=
    fun l => quickSortConcorrente_eq l.length l rfl
  refine ⟨h, by rw [hc]; exact h, ?_⟩
  intro pivot hp
  simp only [hc]
  refine ⟨buckets_eq pivot S, ?_⟩
  have key : quickSort S =
      (quickSort (S.filter (fun v => decide (v < pivot)))
          ++ S.filter (fun v => decide (v = pivot)))
        ++ quickSort (S.filter (fun v => decide (pivot < v))) := by
    by_cases hlen : S.length ≤ 1
    · match S, hlen, hp with
      | [], _, hp => simp at hp
      | [a], _, hp =>
        have hl : ([a] : List Int).length / 2 = 0 := by norm_num
        rw [hl] at hp
        have e : a = pivot := by simpa using hp
        subst e
        simp [quickSort_short]
    · have hm : S.length / 2 < S.length := by omega
      have e : S[S.length / 2] = pivot := by
        rw [List.getElem?_eq_getElem hm] at hp
        exact Option.some.inj hp
      rw [quickSort_unfold S hlen hm, e]
  exact ⟨key, key⟩

theorem quickSort_correct_witness :
    ([3, 1, 2] : List Int)[([3, 1, 2] : List Int).length / 2]? = some 1 ∧
      quickSort [3, 1, 2] =
        (quickSort (([3, 1, 2] : List Int).filter (fun v => decide (v < 1)))
            ++ ([3, 1, 2] : List Int).filter (fun v => decide (v = 1)))
          ++ quickSort (([3, 1, 2] : List Int).filter (fun v => decide (1 < v))) :=
  ⟨by decide, ((quickSort_correct [3, 1, 2]).2.2 1 (by decide)).2.1⟩

/-! ## In-place partition -/

theorem idx_natCast (arr : List Int) (k : Nat) : idx arr (k : Int) = arr[k]? := by
  simp [idx]

theorem idx_eq_some (arr : List Int) (k : Nat) (hk : k < arr.length) :
    idx arr (k : Int) = some arr[k] := by
  rw [idx_natCast, List.getElem?_eq_getElem hk]

theorem idx_neg (arr : List Int) (k : Int) (hk : k < 0) : idx arr k = none := by
  simp [idx, hk]

theorem swap_eq (arr : List Int) (a b : Nat) (ha : a < arr.length) (hb : b < arr.length) :
    swap arr (a : Int) (b : Int) = some ((arr.set a arr[b]).set b arr[a]) := by
  simp [swap, idx_eq_some arr a ha, idx_eq_some arr b hb]

theorem swapped_getElem? (arr : List Int) (a b : Nat) (ha : a < arr.length)
    (hb : b < arr.length) (k : Nat) :
    ((arr.set a arr[b]).set b arr[a])[k]? =
      if k = b then arr[a]? else if k = a then arr[b]? else arr[k]? := by
  rw [List.getElem?_set, List.getElem?_set]
  by_cases h1 : b = k
  · subst h1
    simp [ha, hb]
  · have h1' : ¬ k = b := fun h => h1 h.symm
    by_cases h2 : a = k
    · subst h2
      simp [h1, h1', ha, hb]
    · have h2' : ¬ k = a := fun h => h2 h.symm
      simp [h1, h1', h2, h2']

theorem swapped_perm (arr : List Int) (a b : Nat) (ha : a < arr.length)
    (hb : b < arr.length) : ((arr.set a arr[b]).set b arr[a]).Perm arr := by
  rw [List.perm_iff_count]
  intro v
  rw [List.count_set _ _ _ _ (by simpa using hb), List.count_set _ _ _ _ ha]
  have hpos : (if arr[a] == v then 1 else 0) ≤ arr.count v := by
    by_cases h : arr[a] = v
    · have hm : v ∈ arr := h ▸ List.getElem_mem ha
      have hc := List.count_pos_iff.mpr hm
      have hv : (arr[a] == v) = true := by simp [h]
      rw [if_pos hv]
      omega
    · simp [h]
  by_cases hab : a = b
  · subst hab
    simp only [List.getElem_set_self]
    omega
  · rw [List.getElem_set_ne hab]
    have hpos2 : (if arr[b] == v then 1 else 0) ≤ (1 : Nat) := by
      split <;> omega
    omega

theorem partitionLoop_spec (pivot : Int) (high : Nat) (n : Nat) :
    ∀ (arr : List Int) (i j : Nat), high - j = n → i ≤ j → j ≤ high → high ≤ arr.length →
      (∀ k v, i ≤ k → k < j → arr[k]? = some v → pivot ≤ v) →
      ∃ (arr1 : List Int) (i1 : Nat),
        partitionLoop pivot (high : Int) arr (i : Int) (j : Int) = some (arr1, (i1 : Int)) ∧
        i ≤ i1 ∧ i1 + j ≤ i + high ∧ arr1.length = arr.length ∧ arr1.Perm arr ∧
        (∀ k, (k < i ∨ high ≤ k) → arr1[k]? = arr[k]?) ∧
        (∀ k v, i ≤ k → k < i1 → arr1[k]? = some v → v < pivot) ∧
        (∀ k v, i1 ≤ k → k < high → arr1[k]? = some v → pivot ≤ v) := by
  induction n with
  | zero =>
    intro arr i j hn hij hjh hlen hge
    have hj : j = high := by omega
    subst hj
    refine ⟨arr, i, ?_, le_refl _, by omega, rfl, List.Perm.refl _, fun _ _ => rfl, ?_, ?_⟩
    · rw [partitionLoop]
      simp
    · intro k v h1 h2
      omega
    · intro k v h1 h2 h3
      exact hge k v h1 h2 h3
  | succ n ih =>
    intro arr i j hn hij hjh hlen hge
    have hj : j < high := by omega
    have hjl : j < arr.length := by omega
    have hil : i < arr.length := by omega
    have hjc : (j : Int) < (high : Int) := by omega
    have ci : (i : Int) + 1 = ((i + 1 : Nat) : Int) := by push_cast; rfl
    have cj : (j : Int) + 1 = ((j + 1 : Nat) : Int) := by push_cast; rfl
    rw [partitionLoop]
    simp only [hjc, if_true, idx_eq_some arr j hjl]
    by_cases hlt : arr[j] < pivot
    · simp only [hlt, if_true, swap_eq arr i j hil hjl, ci, cj]
      have hsw := swapped_getElem? arr i j hil hjl
      obtain ⟨arr1, i1, hrun, h1, h2, h3, h4, h5, h6, h7⟩ :=
        ih ((arr.set i arr[j]).set j arr[i]) (i + 1) (j + 1) (by omega) (by omega) (by omega)
          (by simpa using hlen) (by
            intro k v hk1 hk2 hkv
            rw [hsw] at hkv
            by_cases hkj : k = j
            · subst hkj
              simp only [if_true] at hkv
              exact hge i v (le_refl _) (by omega) hkv
            · have hki : ¬ k = i := by omega
              simp only [hkj, hki, if_false] at hkv
              exact hge k v (by omega) (by omega) hkv)
      refine ⟨arr1, i1, hrun, by omega, by omega, by simpa using h3,
        h4.trans (swapped_perm arr i j hil hjl), ?_, ?_, h7⟩
      · intro k hk
        rw [h5 k (by omega), hsw]
        have hkj : ¬ k = j := by omega
        have hki : ¬ k = i := by omega
        simp only [hkj, hki, if_false]
      · intro k v hk1 hk2 hkv
        by_cases hki : k = i
        · subst hki
          rw [h5 k (by omega), hsw] at hkv
          by_cases hkj : k = j
          · subst hkj
            simp only [if_true, List.getElem?_eq_getElem hjl, Option.some.injEq] at hkv
            omega
          · simp only [hkj, if_false, if_true, List.getElem?_eq_getElem hjl,
              Option.some.injEq] at hkv
            omega
        · exact h6 k v (by omega) hk2 hkv
    · simp only [hlt, if_false, cj]
      obtain ⟨arr1, i1, hrun, h1, h2, h3, h4, h5, h6, h7⟩ :=
        ih arr i (j + 1) (by omega) (by omega) (by omega) hlen (by
          intro k v hk1 hk2 hkv
          by_cases hkj : k = j
          · subst hkj
            simp only [List.getElem?_eq_getElem hjl, Option.some.injEq] at hkv
            omega
          · exact hge k v hk1 (by omega) hkv)
      exact ⟨arr1, i1, hrun, h1, by omega, h3, h4, h5, h6, h7⟩

theorem partition_spec (arr : List Int) (low high : Nat) (hlh : low ≤ high)
    (hh : high < arr.length) :
    ∃ (arr1 : List Int) (p : Nat),
      partition arr (low : Int) (high : Int) = some (arr1, (p : Int)) ∧
      low ≤ p ∧ p ≤ high ∧ arr1.length = arr.length ∧ arr1.Perm arr ∧
      (∀ k, (k < low ∨ high < k) → arr1[k]? = arr[k]?) ∧
      arr1[p]? = some arr[high] ∧
      (∀ k v, low ≤ k → k < p → arr1[k]? = some v → v < arr[high]) ∧
      (∀ k v, p < k → k ≤ high → arr1[k]? = some v → arr[high] ≤ v) := by
  obtain ⟨arr2, i, hrun, h1, h2, h3, h4, h5, h6, h7⟩ :=
    partitionLoop_spec arr[high] high (high - low) arr low low rfl (le_refl _) hlh
      (by omega) (by intro k v hk1 hk2; omega)
  have hi2 : i < arr2.length := by omega
  have hh2 : high < arr2.length := by omega
  have hsw := swapped_getElem? arr2 i high hi2 hh2
  have hpiv : arr2[high]? = some arr[high] := by
    rw [h5 high (Or.inr (le_refl _)), List.getElem?_eq_getElem hh]
  refine ⟨(arr2.set i arr2[high]).set high arr2[i], i, ?_, h1, by omega, by simpa using h3,
    (swapped_perm arr2 i high hi2 hh2).trans h4, ?_, ?_, ?_, ?_⟩
  · unfold partition
    simp only [idx_eq_some arr high hh, hrun, swap_eq arr2 i high hi2 hh2]
  · intro k hk
    have hki : ¬ k = i := by omega
    have hkh : ¬ k = high := by omega
    rw [hsw]
    simp only [hki, hkh, if_false]
    exact h5 k (by omega)
  · rw [hsw]
    by_cases hih : i = high
    · subst hih
      simpa using hpiv
    · simpa [hih] using hpiv
  · intro k v hk1 hk2 hkv
    have hki : ¬ k = i := by omega
    have hkh : ¬ k = high := by omega
    rw [hsw] at hkv
    simp only [hki, hkh, if_false] at hkv
    exact h6 k v hk1 hk2 hkv
  · intro k v hk1 hk2 hkv
    have hki : ¬ k = i := by omega
    rw [hsw] at hkv
    by_cases hkh : k = high
    · subst hkh
      simp only [if_true] at hkv
      exact h7 i v (le_refl _) (by omega) hkv
    · simp only [hki, hkh, if_false] at hkv
      exact h7 k v (by omega) (by omega) hkv

/-! ## Segments of an array -/

theorem segment_perm (arr arr1 : List Int) (lo hi : Nat) (hperm : arr1.Perm arr)
    (hframe : ∀ k, (k < lo ∨ hi ≤ k) → arr1[k]? = arr[k]?) :
    ((arr1.drop lo).take (hi - lo)).Perm ((arr.drop lo).take (hi - lo)) := by
  by_cases hlh : lo ≤ hi
  · have e1 : arr1.take lo = arr.take lo := by
      apply List.ext_getElem?
      intro k
      rw [List.getElem?_take, List.getElem?_take]
      by_cases hk : k < lo
      · simp only [hk, if_true]
        exact hframe k (Or.inl hk)
      · simp only [hk, if_false]
    have e2 : (arr1.drop lo).drop (hi - lo) = (arr.drop lo).drop (hi - lo) := by
      apply List.ext_getElem?
      intro k
      simp only [List.getElem?_drop]
      exact hframe _ (Or.inr (by omega))
    have d1 : arr1 = arr1.take lo ++
        ((arr1.drop lo).take (hi - lo) ++ (arr1.drop lo).drop (hi - lo)) := by
      rw [List.take_append_drop, List.take_append_drop]
    have d2 : arr = arr.take lo ++
        ((arr.drop lo).take (hi - lo) ++ (arr.drop lo).drop (hi - lo)) := by
      rw [List.take_append_drop, List.take_append_drop]
    rw [d1, d2, e1, e2] at hperm
    exact (List.perm_append_right_iff _).mp ((List.perm_append_left_iff _).mp hperm)
  · have : hi - lo = 0 := by omega
    simp [this]

theorem mem_segment (arr : List Int) (lo hi : Nat) (v : Int) :
    v ∈ (arr.drop lo).take (hi - lo) ↔ ∃ k, lo ≤ k ∧ k < hi ∧ arr[k]? = some v := by
  rw [List.mem_iff_getElem?]
  constructor
  · rintro ⟨n, hn⟩
    rw [List.getElem?_take] at hn
    by_cases h : n < hi - lo
    · simp only [h, if_true, List.getElem?_drop] at hn
      exact ⟨lo + n, by omega, by omega, hn⟩
    · simp [h] at hn
  · rintro ⟨k, h1, h2, h3⟩
    refine ⟨k - lo, ?_⟩
    rw [List.getElem?_take]
    have h : k - lo < hi - lo := by omega
    simp only [h, if_true, List.getElem?_drop]
    rw [show lo + (k - lo) = k by omega]
    exact h3

theorem segment_forall (arr arr1 : List Int) (lo hi : Nat) (P : Int → Prop)
    (hperm : arr1.Perm arr) (hframe : ∀ k, (k < lo ∨ hi ≤ k) → arr1[k]? = arr[k]?)
    (h : ∀ k v, lo ≤ k → k < hi → arr[k]? = some v → P v) :
    ∀ k v, lo ≤ k → k < hi → arr1[k]? = some v → P v := by
  intro k v h1 h2 h3
  have hm : v ∈ (arr1.drop lo).take (hi - lo) := (mem_segment arr1 lo hi v).mpr ⟨k, h1, h2, h3⟩
  obtain ⟨k0, g1, g2, g3⟩ :=
    (mem_segment arr lo hi v).mp ((segment_perm arr arr1 lo hi hperm hframe).mem_iff.mp hm)
  exact h k0 v g1 g2 g3

/-- C6: for indices `0 ≤ low ≤ high < len(arr)`, `partition(arr, low, high)`
returns an index `p` with `low ≤ p ≤ high`; afterwards `arr[p]` is the former
`arr[high]` (the pivot), every element at an index in `[low, p)` is strictly
less than the pivot, every element at an index in `(p, high]` is at least the
pivot, and `arr[low..high]` is a permutation of its former contents (the
length of `arr` is unchanged). -/
theorem partition_correct (arr : List Int) (low high : Int)
    (h0 : 0 ≤ low) (hlh : low ≤ high) (hh : high < arr.length) :
    ∃ (arr1 : List Int) (p pivot : Int),
      idx arr high = some pivot ∧
      partition arr low high = some (arr1, p) ∧
      low ≤ p ∧ p ≤ high ∧ arr1.length = arr.length ∧
      idx arr1 p = some pivot ∧
      (∀ k : Int, low ≤ k → k < p → ∃ v, idx arr1 k = some v ∧ v < pivot) ∧
      (∀ k : Int, p < k → k ≤ high → ∃ v, idx arr1 k = some v ∧ pivot ≤ v) ∧
      ((arr1.drop low.toNat).take (high - low + 1).toNat).Perm
        ((arr.drop low.toNat).take (high - low + 1).toNat) := by
  obtain ⟨l, rfl⟩ := Int.eq_ofNat_of_zero_le h0
  obtain ⟨h, rfl⟩ := Int.eq_ofNat_of_zero_le (le_trans h0 hlh)
  have hlh1 : l ≤ h := by omega
  have hh1 : h < arr.length := by omega
  obtain ⟨arr1, p, hrun, g1, g2, g3, g4, g5, g6, g7, g8⟩ := partition_spec arr l h hlh1 hh1
  refine ⟨arr1, (p : Int), arr[h], idx_eq_some arr h hh1, hrun, by omega, by omega, g3, ?_,
    ?_, ?_, ?_⟩
  · rw [idx_natCast]
    exact g6
  · intro k hk1 hk2
    obtain ⟨kn, rfl⟩ := Int.eq_ofNat_of_zero_le (le_trans h0 hk1)
    have hkl : kn < arr1.length := by omega
    refine ⟨arr1[kn], idx_eq_some arr1 kn hkl, ?_⟩
    exact g7 kn _ (by omega) (by omega) (List.getElem?_eq_getElem hkl)
  · intro k hk1 hk2
    obtain ⟨kn, rfl⟩ := Int.eq_ofNat_of_zero_le (by omega : (0 : Int) ≤ k)
    have hkl : kn < arr1.length := by omega
    refine ⟨arr1[kn], idx_eq_some arr1 kn hkl, ?_⟩
    exact g8 kn _ (by omega) (by omega) (List.getElem?_eq_getElem hkl)
  · have e1 : ((l : Int)).toNat = l := Int.toNat_ofNat l
    have e2 : ((h : Int) - (l : Int) + 1).toNat = (h + 1) - l := by omega
    rw [e1, e2]
    exact segment_perm arr arr1 l (h + 1) g4 (fun k hk => g5 k (by omega))

theorem partition_correct_witness :
    (0 : Int) ≤ 0 ∧ (0 : Int) ≤ 2 ∧ (2 : Int) < ([3, 1, 2] : List Int).length ∧
      ∃ (arr1 : List Int) (p pivot : Int),
        idx [3, 1, 2] 2 = some pivot ∧
        partition [3, 1, 2] 0 2 = some (arr1, p) ∧
        0 ≤ p ∧ p ≤ 2 ∧ arr1.length = ([3, 1, 2] : List Int).length ∧
        idx arr1 p = some pivot ∧
        (∀ k : Int, 0 ≤ k → k < p → ∃ v, idx arr1 k = some v ∧ v < pivot) ∧
        (∀ k : Int, p < k → k ≤ 2 → ∃ v, idx arr1 k = some v ∧ pivot ≤ v) ∧
        ((arr1.drop (0 : Int).toNat).take ((2 : Int) - 0 + 1).toNat).Perm
          ((([3, 1, 2] : List Int).drop (0 : Int).toNat).take ((2 : Int) - 0 + 1).toNat) :=
  ⟨by decide, by decide, by decide,
    partition_correct [3, 1, 2] 0 2 (by decide) (by decide) (by decide)⟩

/-! ## In-place quick sort -/

theorem parallelQuickSort_base (arr : List Int) (low high : Int) (h : ¬ low < high) :
    parallelQuickSort arr low high = some arr := by
  rw [parallelQuickSort]
  simp only [h, dite_false]

theorem parallelQuickSort_panic (arr : List Int) (low high : Int) (h : low < high)
    (hp : partition arr low high = none) :
    parallelQuickSort arr low high = none := by
  rw [parallelQuickSort]
  simp only [h, dite_true]
  split
  · rfl
  · rename_i arr1 p heq
    rw [hp] at heq
    cases heq

theorem parallelQuickSort_step (arr : List Int) (low high : Int) (arr1 : List Int) (p : Int)
    (h : low < high) (hp : partition arr low high = some (arr1, p)) :
    parallelQuickSort arr low high =
      (parallelQuickSort arr1 low (p - 1)).bind
        (fun arr2 => parallelQuickSort arr2 (p + 1) high) := by
  rw [parallelQuickSort]
  simp only [h, dite_true]
  split
  · rename_i heq
    rw [hp] at heq
    cases heq
  · rename_i arr1' p' heq
    rw [hp] at heq
    cases heq
    cases parallelQuickSort arr1 low (p - 1) <;> rfl

theorem parallelQuickSort_spec (n : Nat) :
    ∀ (arr : List Int) (low high : Int), (high - low).toNat = n →
      (low < high → 0 ≤ low ∧ high < arr.length) →
      ∃ arr1 : List Int,
        parallelQuickSort arr low high = some arr1 ∧
        arr1.length = arr.length ∧ arr1.Perm arr ∧
        (∀ k : Nat, ((k : Int) < low ∨ high < (k : Int)) → arr1[k]? = arr[k]?) ∧
        (∀ (a b : Nat) (x y : Int), low ≤ (a : Int) → a ≤ b → (b : Int) ≤ high →
          arr1[a]? = some x → arr1[b]? = some y → x ≤ y) := by
  induction n using Nat.strong_induction_on with
  | _ n ih =>
    intro arr low high hn hb
    by_cases hlt : low < high
    · obtain ⟨h0, hh⟩ := hb hlt
      obtain ⟨l, rfl⟩ := Int.eq_ofNat_of_zero_le h0
      obtain ⟨h, rfl⟩ := Int.eq_ofNat_of_zero_le (by omega : (0 : Int) ≤ high)
      have hh1 : h < arr.length := by omega
      obtain ⟨arr1, p, hrun, g1, g2, g3, g4, g5, g6, g7, g8⟩ :=
        partition_spec arr l h (by omega) hh1
      obtain ⟨arr2, hrun2, len2, perm2, frame2, sorted2⟩ :=
        ih (((p : Int) - 1) - (l : Int)).toNat (by omega) arr1 (l : Int) ((p : Int) - 1) rfl
          (fun _ => ⟨by omega, by omega⟩)
      obtain ⟨arr3, hrun3, len3, perm3, frame3, sorted3⟩ :=
        ih ((h : Int) - ((p : Int) + 1)).toNat (by omega) arr2 ((p : Int) + 1) (h : Int) rfl
          (fun _ => ⟨by omega, by omega⟩)
      have hA : ∀ k v, l ≤ k → k < p → arr3[k]? = some v → v < arr[h] := by
        intro k v hk1 hk2 hkv
        rw [frame3 k (Or.inl (by omega))] at hkv
        exact segment_forall arr1 arr2 l p (fun v => v < arr[h]) perm2
          (fun k hk => frame2 k (by omega)) g7 k v hk1 hk2 hkv
      have hB : ∀ k v, p + 1 ≤ k → k < h + 1 → arr3[k]? = some v → arr[h] ≤ v := by
        refine segment_forall arr2 arr3 (p + 1) (h + 1) (fun v => arr[h] ≤ v) perm3
          (fun k hk => frame3 k (by omega)) ?_
        intro k v hk1 hk2 hkv
        rw [frame2 k (Or.inr (by omega))] at hkv
        exact g8 k v (by omega) (by omega) hkv
      have hC : arr3[p]? = some arr[h] := by
        rw [frame3 p (Or.inl (by omega)), frame2 p (Or.inr (by omega))]
        exact g6
      refine ⟨arr3, ?_, by omega, perm3.trans (perm2.trans g4), ?_, ?_⟩
      · rw [parallelQuickSort_step arr l h arr1 p hlt hrun, hrun2]
        exact hrun3
      · intro k hk
        rw [frame3 k (by omega), frame2 k (by omega)]
        exact g5 k (by omega)
      · intro a b x y ha hab hb hx hy
        by_cases hbp : b < p
        · rw [frame3 a (Or.inl (by omega))] at hx
          rw [frame3 b (Or.inl (by omega))] at hy
          exact sorted2 a b x y ha hab (by omega) hx hy
        · by_cases hap : p < a
          · exact sorted3 a b x y (by omega) hab hb hx hy
          · have hx1 : x ≤ arr[h] := by
              by_cases hap1 : a = p
              · subst hap1
                rw [hC] at hx
                exact le_of_eq (Option.some.inj hx).symm
              · exact le_of_lt (hA a x (by omega) (by omega) hx)
            have hy1 : arr[h] ≤ y := by
              by_cases hbp1 : b = p
              · subst hbp1
                rw [hC] at hy
                exact le_of_eq (Option.some.inj hy)
              · exact hB b y (by omega) (by omega) hy
            exact le_trans hx1 hy1
    · refine ⟨arr, parallelQuickSort_base arr low high hlt, rfl, List.Perm.refl _,
        fun _ _ => rfl, ?_⟩
      intro a b x y ha hab hb hx hy
      have e : a = b := by omega
      subst e
      rw [hx] at hy
      exact le_of_eq (Option.some.inj hy)

theorem frame_idx (a b : List Int) (low high : Int)
    (h : ∀ k : Nat, ((k : Int) < low ∨ high < (k : Int)) → a[k]? = b[k]?) :
    ∀ k : Int, (k < low ∨ high < k) → idx a k = idx b k := by
  intro k hk
  by_cases h0 : 0 ≤ k
  · obtain ⟨kn, rfl⟩ := Int.eq_ofNat_of_zero_le h0
    rw [idx_natCast, idx_natCast]
    exact h kn hk
  · rw [idx_neg a k (by omega), idx_neg b k (by omega)]

/-- C3: for every sequence `S`, the empty one included (then `high = -1`),
`parallelQuickSort(S, 0, len(S)-1)` returns normally and leaves `S`
non-decreasing, of the same length and a permutation of its former
contents. -/
theorem parallelQuickSort_correct (S : List Int) :
    ∃ S1 : List Int,
      parallelQuickSort S 0 ((S.length : Int) - 1) = some S1 ∧
      S1.Sorted (fun a b => a ≤ b) ∧ S1.length = S.length ∧ S1.Perm S := by
  obtain ⟨S1, hrun, hlen, hperm, _, hsorted⟩ :=
    parallelQuickSort_spec _ S 0 ((S.length : Int) - 1) rfl
      (fun _ => ⟨le_refl _, by omega⟩)
  refine ⟨S1, hrun, ?_, hlen, hperm⟩
  refine List.pairwise_iff_getElem.mpr ?_
  intro i j hi hj hij
  exact hsorted i j _ _ (by omega) (by omega) (by omega) (List.getElem?_eq_getElem hi)
    (List.getElem?_eq_getElem hj)

/-- C9: for indices `0 ≤ low ≤ high < len(arr)`, `parallelQuickSort(arr, low,
high)` returns normally, keeps the length of `arr` and leaves every index
outside `[low, high]` as it was; when `low < high`, the index `p` returned by
`partition` satisfies `low ≤ p ≤ high`, so that `[low, p-1]` and `[p+1, high]`
are disjoint and inside `[low, high]`, the call on `[low, p-1]` changes no
index outside `[low, p-1]` and the call on `[p+1, high]` changes no index
outside `[p+1, high]`. -/
theorem parallelQuickSort_frame (arr : List Int) (low high : Int)
    (h0 : 0 ≤ low) (hlh : low ≤ high) (hh : high < arr.length) :
    ∃ arr3 : List Int,
      parallelQuickSort arr low high = some arr3 ∧
      arr3.length = arr.length ∧
      (∀ k : Int, (k < low ∨ high < k) → idx arr3 k = idx arr k) ∧
      (low < high →
        ∃ (arr1 : List Int) (p : Int) (arr2 : List Int),
          partition arr low high = some (arr1, p) ∧ low ≤ p ∧ p ≤ high ∧
          parallelQuickSort arr1 low (p - 1) = some arr2 ∧
          arr2.length = arr1.length ∧
          (∀ k : Int, (k < low ∨ p - 1 < k) → idx arr2 k = idx arr1 k) ∧
          parallelQuickSort arr2 (p + 1) high = some arr3 ∧
          arr3.length = arr2.length ∧
          (∀ k : Int, (k < p + 1 ∨ high < k) → idx arr3 k = idx arr2 k)) := by
  by_cases hlt : low < high
  · obtain ⟨l, rfl⟩ := Int.eq_ofNat_of_zero_le h0
    obtain ⟨h, rfl⟩ := Int.eq_ofNat_of_zero_le (le_trans h0 hlh)
    have hh1 : h < arr.length := by omega
    obtain ⟨arr1, p, hrun, g1, g2, g3, g4, g5, _, _, _⟩ :=
      partition_spec arr l h (by omega) hh1
    obtain ⟨arr2, hrun2, len2, _, frame2, _⟩ :=
      parallelQuickSort_spec _ arr1 (l : Int) ((p : Int) - 1) rfl
        (fun _ => ⟨by omega, by omega⟩)
    obtain ⟨arr3, hrun3, len3, _, frame3, _⟩ :=
      parallelQuickSort_spec _ arr2 ((p : Int) + 1) (h : Int) rfl
        (fun _ => ⟨by omega, by omega⟩)
    refine ⟨arr3, ?_, by omega, ?_, fun _ => ⟨arr1, (p : Int), arr2, hrun, by omega, by omega,
      hrun2, len2, frame_idx arr2 arr1 _ _ frame2, hrun3, len3,
      frame_idx arr3 arr2 _ _ frame3⟩⟩
    · rw [parallelQuickSort_step arr l h arr1 p hlt hrun, hrun2]
      exact hrun3
    · refine frame_idx arr3 arr _ _ ?_
      intro k hk
      rw [frame3 k (by omega), frame2 k (by omega)]
      exact g5 k (by omega)
  · exact ⟨arr, parallelQuickSort_base arr low high hlt, rfl, fun _ _ => rfl,
      fun h => absurd h hlt⟩

theorem parallelQuickSort_frame_witness :
    (0 : Int) ≤ 0 ∧ (0 : Int) ≤ 2 ∧ (2 : Int) < ([3, 1, 2, 7] : List Int).length ∧
      ∃ arr3 : List Int,
        parallelQuickSort [3, 1, 2, 7] 0 2 = some arr3 ∧
        arr3.length = ([3, 1, 2, 7] : List Int).length ∧
        (∀ k : Int, (k < 0 ∨ 2 < k) → idx arr3 k = idx [3, 1, 2, 7] k) ∧
        ((0 : Int) < 2 →
          ∃ (arr1 : List Int) (p : Int) (arr2 : List Int),
            partition [3, 1, 2, 7] 0 2 = some (arr1, p) ∧ 0 ≤ p ∧ p ≤ 2 ∧
            parallelQuickSort arr1 0 (p - 1) = some arr2 ∧
            arr2.length = arr1.length ∧
            (∀ k : Int, (k < 0 ∨ p - 1 < k) → idx arr2 k = idx arr1 k) ∧
            parallelQuickSort arr2 (p + 1) 2 = some arr3 ∧
            arr3.length = arr2.length ∧
            (∀ k : Int, (k < p + 1 ∨ 2 < k) → idx arr3 k = idx arr2 k)) :=
  ⟨by decide, by decide, by decide,
    parallelQuickSort_frame [3, 1, 2, 7] 0 2 (by decide) (by decide) (by decide)⟩

/-! ## Partition called with `low > high` -/

theorem partitionLoop_done (pivot high : Int) (arr : List Int) (i j : Int) (h : ¬ j < high) :
    partitionLoop pivot high arr i j = some (arr, i) := by
  rw [partitionLoop]
  simp only [h, if_false]

/-- C10, counterexample: on `arr = [1, 2]` with the in-bounds indices
`low = 1 > high = 0`, `partition` does not fail; it returns `1` and leaves
`arr = [2, 1]`, which differs from `[1, 2]`. -/
theorem partition_low_gt_high_counterexample :
    partition [1, 2] 1 0 = some ([2, 1], 1) ∧ partition [1, 2] 1 0 ≠ none ∧
      ([2, 1] : List Int) ≠ [1, 2] := by
  have h : partition [1, 2] 1 0 = some ([2, 1], 1) := by
    unfold partition
    simp [idx, swap, partitionLoop_done]
  exact ⟨h, by rw [h]; simp, by decide⟩

/-- C10, amended: for in-bounds indices with `low > high`, `partition(arr,
low, high)` does not fail: the scan makes no iteration, `arr[low]` and
`arr[high]` are exchanged and `low` is returned, so `arr` is unchanged exactly
when `arr[low] = arr[high]`; `parallelQuickSort(arr, low, high)` itself makes
no call of `partition` for such indices and returns `arr` as it is. -/
theorem partition_low_gt_high (arr : List Int) (low high : Int)
    (h0 : 0 ≤ high) (hlh : high < low) (hl : low < arr.length) :
    ∃ x y : Int, idx arr low = some x ∧ idx arr high = some y ∧
      partition arr low high = some ((arr.set low.toNat y).set high.toNat x, low) ∧
      ((arr.set low.toNat y).set high.toNat x = arr ↔ x = y) ∧
      parallelQuickSort arr low high = some arr := by
  obtain ⟨h, rfl⟩ := Int.eq_ofNat_of_zero_le h0
  obtain ⟨l, rfl⟩ := Int.eq_ofNat_of_zero_le (by omega : (0 : Int) ≤ low)
  have hl1 : l < arr.length := by omega
  have hh1 : h < arr.length := by omega
  have hne : ¬ (l : Int) < (h : Int) := by omega
  refine ⟨arr[l], arr[h], idx_eq_some arr l hl1, idx_eq_some arr h hh1, ?_, ?_,
    parallelQuickSort_base arr _ _ hne⟩
  · unfold partition
    simp only [idx_eq_some arr h hh1, partitionLoop_done _ _ _ _ _ hne,
      swap_eq arr l h hl1 hh1, Int.toNat_ofNat]
  · simp only [Int.toNat_ofNat]
    constructor
    · intro e
      have e1 := congrArg (fun a : List Int => a[l]?) e
      simp only [swapped_getElem? arr l h hl1 hh1] at e1
      have hlh1 : ¬ l = h := by omega
      simp only [hlh1, if_false, if_true, List.getElem?_eq_getElem hl1,
        List.getElem?_eq_getElem hh1, Option.some.injEq] at e1
      exact e1.symm
    · intro e
      apply List.ext_getElem?
      intro k
      rw [swapped_getElem? arr l h hl1 hh1]
      by_cases hk1 : k = h
      · subst hk1
        simp only [if_true, List.getElem?_eq_getElem hl1, List.getElem?_eq_getElem hh1, e]
      · by_cases hk2 : k = l
        · subst hk2
          simp only [hk1, if_false, if_true, List.getElem?_eq_getElem hl1,
            List.getElem?_eq_getElem hh1, e]
        · simp only [hk1, hk2, if_false]

theorem partition_low_gt_high_witness :
    (0 : Int) ≤ 0 ∧ (0 : Int) < 1 ∧ (1 : Int) < ([1, 2] : List Int).length ∧
      ∃ x y : Int, idx [1, 2] 1 = some x ∧ idx [1, 2] 0 = some y ∧
        partition [1, 2] 1 0 =
          some ((([1, 2] : List Int).set (1 : Int).toNat y).set (0 : Int).toNat x, 1) ∧
        ((([1, 2] : List Int).set (1 : Int).toNat y).set (0 : Int).toNat x = [1, 2] ↔ x = y) ∧
        parallelQuickSort [1, 2] 1 0 = some [1, 2] :=
  ⟨by decide, by decide, by decide,
    partition_low_gt_high [1, 2] 1 0 (by decide) (by decide) (by decide)⟩

/-! ## Chunking: a chunk whose start lies past the clamped end -/

/-- C7, failing input: for the 5-element `arr = [1, 2, 3, 4, 5]` and
`numChunks = 4` the chunk size is 2; chunk 3 has `start = 6` and the clamped
`end = 5`, the slice `arr[6:5]` is out of range and `chunkArray` panics
instead of returning 4 chunks.  The same happens for `[1, 2]` and 4 chunks
(`arr[3:2]`). -/
theorem chunkArray_start_past_end :
    (([1, 2, 3, 4, 5] : List Int).length + 4 - 1) / 4 = 2 ∧
      slice [1, 2, 3, 4, 5] 6 5 = none ∧
      chunkArray [1, 2, 3, 4, 5] 4 = none ∧
      chunkArray [1, 2] 4 = none := by
  decide

/-- C4, failing input: `mergeSortConcurrent` with `numCores = 4` panics on the
5-element sequence `[5, 4, 3, 2, 1]` (in `chunkArray`, slice `arr[6:5]`), and
with `numCores = 4 > len(S)` on `[2, 1]` (slice `arr[3:2]`). -/
theorem mergeSortConcurrent_panics :
    mergeSortConcurrent [5, 4, 3, 2, 1] 4 = none ∧ mergeSortConcurrent [2, 1] 4 = none := by
  decide

/-- C8, failing input: on `S = [3, 1, 2, 0, 4]` with `P = 4` chunks,
`mergeSortConcurrent` panics and so produces no output, while `mergeSort`
returns an output of length 5. -/
theorem mergeSortConcurrent_no_output :
    mergeSortConcurrent [3, 1, 2, 0, 4] 4 = none ∧
      (mergeSort [3, 1, 2, 0, 4]).length = 5 ∧
      mergeSortConcurrent [3, 1, 2, 0, 4] 4 ≠ some (mergeSort [3, 1, 2, 0, 4]) := by
  have h : mergeSortConcurrent [3, 1, 2, 0, 4] 4 = none := by decide
  refine ⟨h, (mergeSort_sorted_perm _ _ rfl).2.length_eq, ?_⟩
  rw [h]
  simp

/-! ## Chunking when every start is inside the data -/

theorem slice_eq_some (arr : List Int) (start end_ : Nat) (h1 : start ≤ end_)
    (h2 : end_ ≤ arr.length) :
    slice arr start end_ = some ((arr.drop start).take (end_ - start)) := by
  simp [slice, h1, h2]

theorem slice_eq_none (arr : List Int) (start end_ : Nat) (h : end_ < start) :
    slice arr start end_ = none := by
  have : ¬ start ≤ end_ := by omega
  simp [slice, this]

theorem chunkLoop_some (arr : List Int) (c : Nat) (n : Nat) :
    ∀ i : Nat, (∀ k, i ≤ k → k < i + n → k * c ≤ arr.length) →
      ∃ chunks : List (List Int),
        chunkLoop arr c n i = some chunks ∧ chunks.length = n ∧
        (arr.length ≤ (i + n) * c → chunks.flatten = arr.drop (i * c)) ∧
        (∀ k, k < n → chunks[k]? =
          some ((arr.drop ((i + k) * c)).take (min ((i + k + 1) * c) arr.length - (i + k) * c))) := by
  induction n with
  | zero =>
    intro i _
    refine ⟨[], rfl, rfl, ?_, ?_⟩
    · intro h
      rw [List.drop_of_length_le (by simpa using h)]
      rfl
    · intro k hk
      omega
  | succ n ih =>
    intro i h
    have hs : i * c ≤ arr.length := h i (le_refl _) (by omega)
    have hc : (i + 1) * c = i * c + c := Nat.succ_mul i c
    obtain ⟨rest, hrest, hlen, hjoin, hget⟩ := ih (i + 1) (fun k hk1 hk2 => h k (by omega) (by omega))
    have hend : (if (i + 1) * c > arr.length then arr.length else (i + 1) * c)
        = min ((i + 1) * c) arr.length := by
      split <;> omega
    have hsl : slice arr (i * c) (min ((i + 1) * c) arr.length)
        = some ((arr.drop (i * c)).take (min ((i + 1) * c) arr.length - i * c)) :=
      slice_eq_some arr _ _ (by omega) (by omega)
    refine ⟨(arr.drop (i * c)).take (min ((i + 1) * c) arr.length - i * c) :: rest, ?_, by simp [hlen],
      ?_, ?_⟩
    · simp only [chunkLoop, hend, hsl, hrest]
    · intro hbig
      rw [List.flatten_cons, hjoin (by rw [show i + 1 + n = i + (n + 1) by omega]; exact hbig)]
      by_cases hle : (i + 1) * c ≤ arr.length
      · rw [show min ((i + 1) * c) arr.length - i * c = c by omega, hc, ← List.drop_drop,
          List.take_append_drop]
      · rw [List.drop_of_length_le (by omega : arr.length ≤ (i + 1) * c), List.append_nil,
          List.take_of_length_le (by simp; omega)]
    · intro k hk
      cases k with
      | zero => simp
      | succ k =>
        rw [List.getElem?_cons_succ, hget k (by omega)]
        rw [show i + 1 + k = i + (k + 1) by omega]

theorem chunkLoop_none (arr : List Int) (c : Nat) (n : Nat) :
    ∀ i k : Nat, i ≤ k → k < i + n → arr.length < k * c → chunkLoop arr c n i = none := by
  induction n with
  | zero =>
    intro i k h1 h2
    omega
  | succ n ih =>
    intro i k h1 h2 h3
    have hend : (if (i + 1) * c > arr.length then arr.length else (i + 1) * c)
        = min ((i + 1) * c) arr.length := by
      split <;> omega
    by_cases hki : k = i
    · subst hki
      have hsl : slice arr (k * c) (min ((k + 1) * c) arr.length) = none :=
        slice_eq_none arr _ _ (by omega)
      simp only [chunkLoop, hend, hsl]
    · have hrest := ih (i + 1) k (by omega) (by omega) h3
      simp only [chunkLoop, hend, hrest]
      split <;> rfl

theorem chunkSize_covers (n P : Nat) (hP : 0 < P) : n ≤ P * ((n + P - 1) / P) := by
  have h := Nat.lt_mul_div_succ (n + P - 1) hP
  have e : P * ((n + P - 1) / P + 1) = P * ((n + P - 1) / P) + P := by ring
  omega

/-- What `chunkArray` returns when every chunk starts inside the data, that
is when `(numChunks - 1) * chunkSize ≤ len(arr)`: exactly `numChunks` chunks,
chunk `i` being `arr[i*c : min((i+1)*c, n)]`, whose concatenation is `arr`. -/
theorem chunkArray_some (arr : List Int) (P : Nat) (hP : 0 < P)
    (h : (P - 1) * ((arr.length + P - 1) / P) ≤ arr.length) :
    ∃ chunks : List (List Int),
      chunkArray arr P = some chunks ∧ chunks.length = P ∧ chunks.flatten = arr ∧
      (∀ k, k < P → chunks[k]? =
        some ((arr.drop (k * ((arr.length + P - 1) / P))).take
          (min ((k + 1) * ((arr.length + P - 1) / P)) arr.length
            - k * ((arr.length + P - 1) / P)))) := by
  obtain ⟨chunks, hrun, hlen, hjoin, hget⟩ :=
    chunkLoop_some arr ((arr.length + P - 1) / P) P 0 (by
      intro k _ hk
      have hk1 : k ≤ P - 1 := by omega
      exact le_trans (Nat.mul_le_mul_right _ hk1) h)
  refine ⟨chunks, ?_, hlen, ?_, ?_⟩
  · have hP0 : ¬ P = 0 := by omega
    simp only [chunkArray, hP0, if_false]
    exact hrun
  · have := hjoin (by
      rw [Nat.zero_add]
      exact chunkSize_covers arr.length P hP)
    simpa using this
  · intro k hk
    have := hget k hk
    simpa using this

/-- The panic of `chunkArray`: some chunk starts past the data, that is
`(numChunks - 1) * chunkSize > len(arr)`. -/
theorem chunkArray_none (arr : List Int) (P : Nat)
    (h : arr.length < (P - 1) * ((arr.length + P - 1) / P)) :
    chunkArray arr P = none := by
  by_cases hP0 : P = 0
  · simp [chunkArray, hP0]
  · simp only [chunkArray, hP0, if_false]
    exact chunkLoop_none arr _ P 0 (P - 1) (Nat.zero_le _) (by omega) h

/-! ## Folding the sorted chunks -/

theorem foldl_merge_sorted_perm (rest : List (List Int)) :
    ∀ acc : List Int, acc.Sorted (fun a b => a ≤ b) →
      (∀ c ∈ rest, c.Sorted (fun a b => a ≤ b)) →
      (rest.foldl merge acc).Sorted (fun a b => a ≤ b) ∧
        (rest.foldl merge acc).Perm (acc ++ rest.flatten) := by
  induction rest with
  | nil =>
    intro acc hacc _
    simpa using hacc
  | cons c rest ih =>
    intro acc hacc hall
    have hc := hall c (List.mem_cons_self c rest)
    obtain ⟨h1, h2⟩ := ih (merge acc c) (merge_sorted acc c hacc hc)
      (fun d hd => hall d (List.mem_cons_of_mem c hd))
    refine ⟨h1, ?_⟩
    rw [List.foldl_cons, List.flatten_cons, ← List.append_assoc]
    exact h2.trans (List.Perm.append_right _ (merge_perm acc c))

theorem mergeSortedChunks_sorted_perm (chunks : List (List Int))
    (hall : ∀ c ∈ chunks, c.Sorted (fun a b => a ≤ b)) :
    (mergeSortedChunks chunks).Sorted (fun a b => a ≤ b) ∧
      (mergeSortedChunks chunks).Perm chunks.flatten := by
  cases chunks with
  | nil => exact ⟨List.sorted_nil, List.Perm.refl _⟩
  | cons first rest =>
    have := foldl_merge_sorted_perm rest first (hall first (List.mem_cons_self _ _))
      (fun d hd => hall d (List.mem_cons_of_mem _ hd))
    simpa [mergeSortedChunks] using this

theorem map_mergeSort_flatten_perm (chunks : List (List Int)) :
    (chunks.map mergeSort).flatten.Perm chunks.flatten := by
  induction chunks with
  | nil => exact List.Perm.refl _
  | cons c rest ih =>
    simp only [List.map_cons, List.flatten_cons]
    exact List.Perm.append (mergeSort_sorted_perm _ c rfl).2 ih

theorem sorted_perm_unique (a b : List Int) (ha : a.Sorted (fun x y => x ≤ y))
    (hb : b.Sorted (fun x y => x ≤ y)) (h : a.Perm b) : a = b :=
  List.eq_of_perm_of_sorted h ha hb

/-- Whenever `mergeSortConcurrent` returns, it returns the non-decreasing
permutation of `S` that `mergeSort` returns; it panics exactly when `S` has at
least two elements and `numCores` is 0 or some chunk starts past the data. -/
theorem mergeSortConcurrent_spec (S : List Int) (P : Nat) :
    (∀ out, mergeSortConcurrent S P = some out →
        out.Sorted (fun a b => a ≤ b) ∧ out.Perm S ∧ out = mergeSort S) ∧
      (mergeSortConcurrent S P = none ↔
        1 < S.length ∧ (P = 0 ∨ S.length < (P - 1) * ((S.length + P - 1) / P))) := by
  have hms := mergeSort_sorted_perm _ S rfl
  by_cases hlen : S.length ≤ 1
  · have hrun : mergeSortConcurrent S P = some S := by simp [mergeSortConcurrent, hlen]
    have hS : mergeSort S = S := by
      rw [mergeSort]
      simp only [hlen, dite_true]
    rw [hrun]
    refine ⟨?_, ?_⟩
    · intro out hout
      have e : S = out := Option.some.inj hout
      subst e
      exact ⟨hS ▸ hms.1, List.Perm.refl _, hS.symm⟩
    · constructor
      · intro h
        cases h
      · intro h
        omega
  · by_cases hP : P = 0
    · have hrun : mergeSortConcurrent S P = none := by
        simp [mergeSortConcurrent, hlen, chunkArray, hP]
      rw [hrun]
      exact ⟨fun out h => (by cases h), ⟨fun _ => ⟨by omega, Or.inl hP⟩, fun _ => rfl⟩⟩
    · by_cases hbad : S.length < (P - 1) * ((S.length + P - 1) / P)
      · have hrun : mergeSortConcurrent S P = none := by
          simp [mergeSortConcurrent, hlen, chunkArray_none S P hbad]
        rw [hrun]
        exact ⟨fun out h => (by cases h), ⟨fun _ => ⟨by omega, Or.inr hbad⟩, fun _ => rfl⟩⟩
      · obtain ⟨chunks, hrun, _, hjoin, _⟩ := chunkArray_some S P (by omega) (by omega)
        have hrun2 : mergeSortConcurrent S P
            = some (mergeSortedChunks (chunks.map mergeSort)) := by
          simp [mergeSortConcurrent, hlen, hrun]
        have hall : ∀ c ∈ chunks.map mergeSort, c.Sorted (fun a b => a ≤ b) := by
          intro c hc
          obtain ⟨d, _, rfl⟩ := List.mem_map.mp hc
          exact (mergeSort_sorted_perm _ d rfl).1
        obtain ⟨s1, s2⟩ := mergeSortedChunks_sorted_perm _ hall
        have hperm : (mergeSortedChunks (chunks.map mergeSort)).Perm S := by
          have := s2.trans (map_mergeSort_flatten_perm chunks)
          rwa [hjoin] at this
        rw [hrun2]
        refine ⟨?_, ?_⟩
        · intro out hout
          have e : mergeSortedChunks (chunks.map mergeSort) = out := Option.some.inj hout
          subst e
          exact ⟨s1, hperm, sorted_perm_unique _ _ s1 hms.1 (hperm.trans hms.2.symm)⟩
        · constructor
          · intro h
            cases h
          · rintro ⟨_, h | h⟩
            · exact absurd h hP
            · exact absurd h hbad

/-- The five algorithms other than `mergeSortConcurrent` return the same
sequence for every input. -/
theorem five_sorts_agree (S : List Int) :
    mergeSortConcorrente S = mergeSort S ∧ quickSort S = mergeSort S ∧
      quickSortConcorrente S = mergeSort S ∧
      parallelQuickSort S 0 ((S.length : Int) - 1) = some (mergeSort S) := by
  have hms := mergeSort_sorted_perm _ S rfl
  have hqs := quickSort_sorted_perm _ S rfl
  have hq : quickSort S = mergeSort S :=
    sorted_perm_unique _ _ hqs.1 hms.1 (hqs.2.trans hms.2.symm)
  obtain ⟨S1, hrun, _, hperm, _, hsorted⟩ :=
    parallelQuickSort_spec _ S 0 ((S.length : Int) - 1) rfl (fun _ => ⟨le_refl _, by omega⟩)
  have hs1 : S1.Sorted (fun a b => a ≤ b) := by
    refine List.pairwise_iff_getElem.mpr ?_
    intro i j hi hj hij
    exact hsorted i j _ _ (by omega) (by omega) (by have := hperm.length_eq; omega)
      (List.getElem?_eq_getElem hi) (List.getElem?_eq_getElem hj)
  refine ⟨mergeSortConcorrente_eq _ S rfl, hq, ?_, ?_⟩
  · rw [quickSortConcorrente_eq _ S rfl, hq]
  · rw [hrun, sorted_perm_unique _ _ hs1 hms.1 (hperm.trans hms.2.symm)]

/-! ## Merge: which cursor advances -/

theorem mergeLoop_eq_step (left right : List Int) (result : List Int) (i j : Nat)
    (h : i < left.length ∧ j < right.length) :
    mergeLoop left right result i j =
      mergeLoop left right (mergeStep left right result i j h).1
        (mergeStep left right result i j h).2.1 (mergeStep left right result i j h).2.2 := by
  rw [mergeLoop]
  simp only [h, and_self, dite_true, mergeStep]
  split <;> rfl

/-- C11, counterexample: with `left = [7]`, `right = [7]` and both cursors at
0 the current elements are equal, and the iteration leaves `i = 0` and moves
`j` to 1: the element emitted is `right[0]`, the left cursor does not
advance. -/
theorem mergeStep_tie_counterexample :
    mergeStep [7] [7] [] 0 0 (by decide) = ([7], 0, 1) ∧
      mergeStep [7] [7] [] 0 0 (by decide) ≠ ([7], 1, 0) := by
  decide

/-- C11, amended: in `merge`, whenever both cursors are in range, the left
element is emitted and `i` advances exactly when `left[i] < right[j]`; when
the current elements compare equal the element emitted next is the right
sequence's element, `j` advances and `i` stays (right-before-left on equal
keys), and the loop goes on from that state. -/
theorem mergeStep_tie (left right : List Int) (result : List Int) (i j : Nat)
    (h : i < left.length ∧ j < right.length) :
    (left[i] < right[j] → mergeStep left right result i j h = (result ++ [left[i]], i + 1, j)) ∧
      (¬ left[i] < right[j] →
        mergeStep left right result i j h = (result ++ [right[j]], i, j + 1)) ∧
      (left[i] = right[j] →
        mergeStep left right result i j h = (result ++ [right[j]], i, j + 1) ∧
          mergeLoop left right result i j = mergeLoop left right (result ++ [right[j]]) i (j + 1)) := by
  refine ⟨fun hlt => by simp [mergeStep, hlt], fun hlt => by simp [mergeStep, hlt], ?_⟩
  intro heq
  have hlt : ¬ left[i] < right[j] := by omega
  have hstep : mergeStep left right result i j h = (result ++ [right[j]], i, j + 1) := by
    simp [mergeStep, hlt]
  refine ⟨hstep, ?_⟩
  rw [mergeLoop_eq_step left right result i j h, hstep]

theorem mergeStep_tie_witness :
    ((0 : Nat) < ([1, 7] : List Int).length ∧ (1 : Nat) < ([3, 1] : List Int).length) ∧
      (([1, 7] : List Int)[0]? = ([3, 1] : List Int)[1]?) ∧
      mergeLoop [1, 7] [3, 1] [] 0 1 = mergeLoop [1, 7] [3, 1] ([] ++ [1]) 0 (1 + 1) :=
  ⟨by decide, by decide,
    ((mergeStep_tie [1, 7] [3, 1] [] 0 1 (by decide)).2.2 (by decide)).2⟩

/-! ## Sorting a sequence that is already non-decreasing -/

theorem sorts_of_sorted (S : List Int) (hS : S.Sorted (fun a b => a ≤ b)) :
    mergeSort S = S ∧ mergeSortConcorrente S = S ∧ quickSort S = S ∧
      quickSortConcorrente S = S ∧
      parallelQuickSort S 0 ((S.length : Int) - 1) = some S := by
  have hms := mergeSort_sorted_perm _ S rfl
  have hm : mergeSort S = S := sorted_perm_unique _ _ hms.1 hS hms.2
  obtain ⟨h1, h2, h3, h4⟩ := five_sorts_agree S
  exact ⟨hm, h1.trans hm, h2.trans hm, h3.trans hm, by rw [h4, hm]⟩

theorem sorted_of_all_eq (S : List Int) (v : Int) (h : ∀ x ∈ S, x = v) :
    S.Sorted (fun a b => a ≤ b) := by
  refine List.pairwise_iff_forall_sublist.mpr ?_
  intro a b hab
  have ha := h a (hab.subset (List.mem_cons_self a [b]))
  have hb := h b (hab.subset (List.mem_cons_of_mem a (List.mem_singleton_self b)))
  omega

/-- C12: sorting is idempotent: for every sequence `S`, each of `mergeSort`,
`mergeSortConcorrente`, `quickSort` and `quickSortConcorrente` applied to its
own output returns that output, and `parallelQuickSort(S, 0, len(S)-1)` run a
second time leaves `S` exactly as the first run left it. -/
theorem sorts_idempotent (S : List Int) :
    mergeSort (mergeSort S) = mergeSort S ∧
      mergeSortConcorrente (mergeSortConcorrente S) = mergeSortConcorrente S ∧
      quickSort (quickSort S) = quickSort S ∧
      quickSortConcorrente (quickSortConcorrente S) = quickSortConcorrente S ∧
      ∃ S1 : List Int,
        parallelQuickSort S 0 ((S.length : Int) - 1) = some S1 ∧
        S1.length = S.length ∧
        parallelQuickSort S1 0 ((S.length : Int) - 1) = some S1 := by
  have hms := mergeSort_sorted_perm _ S rfl
  obtain ⟨h1, h2, h3, h4⟩ := five_sorts_agree S
  obtain ⟨g1, g2, g3, g4, g5⟩ := sorts_of_sorted (mergeSort S) hms.1
  rw [h1, h2, h3]
  refine ⟨g1, g2, g3, g4, mergeSort S, h4, hms.2.length_eq, ?_⟩
  rw [← hms.2.length_eq]
  exact g5

/-- C14: a sequence `S` whose elements are all equal (the empty and the
one-element sequences included) is returned as it is by `mergeSort`,
`mergeSortConcorrente`, `quickSort` and `quickSortConcorrente`, and
`parallelQuickSort(S, 0, len(S)-1)` leaves `S` equal to its original
contents. -/
theorem sorts_all_equal (S : List Int) (v : Int) (h : ∀ x ∈ S, x = v) :
    mergeSort S = S ∧ mergeSortConcorrente S = S ∧ quickSort S = S ∧
      quickSortConcorrente S = S ∧
      parallelQuickSort S 0 ((S.length : Int) - 1) = some S :=
  sorts_of_sorted S (sorted_of_all_eq S v h)

theorem sorts_all_equal_witness :
    (∀ x ∈ ([4, 4, 4, 4] : List Int), x = 4) ∧
      (mergeSort [4, 4, 4, 4] = [4, 4, 4, 4] ∧ mergeSortConcorrente [4, 4, 4, 4] = [4, 4, 4, 4] ∧
        quickSort [4, 4, 4, 4] = [4, 4, 4, 4] ∧ quickSortConcorrente [4, 4, 4, 4] = [4, 4, 4, 4] ∧
        parallelQuickSort [4, 4, 4, 4] 0 ((([4, 4, 4, 4] : List Int).length : Int) - 1)
          = some [4, 4, 4, 4]) :=
  ⟨by decide, sorts_all_equal [4, 4, 4, 4] 4 (by decide)⟩

/-! ## The recursions are well-founded -/

theorem mergeSort_unfold (arr : List Int) (h : ¬ arr.length ≤ 1) :
    mergeSort arr =
      merge (mergeSort (arr.take (arr.length / 2))) (mergeSort (arr.drop (arr.length / 2))) := by
  rw [mergeSort]
  simp only [h, dite_false]

theorem parallelQuickSort_calls (arr : List Int) (l h : Nat) (hlt : l < h)
    (hh : h < arr.length) :
    ∃ (arr1 : List Int) (p : Nat) (arr2 arr3 : List Int),
      partition arr (l : Int) (h : Int) = some (arr1, (p : Int)) ∧ l ≤ p ∧ p ≤ h ∧
      arr1.length = arr.length ∧
      parallelQuickSort arr1 (l : Int) ((p : Int) - 1) = some arr2 ∧
      arr2.length = arr.length ∧
      parallelQuickSort arr2 ((p : Int) + 1) (h : Int) = some arr3 ∧
      parallelQuickSort arr (l : Int) (h : Int) = some arr3 := by
  obtain ⟨arr1, p, hrun, g1, g2, g3, _⟩ := partition_spec arr l h (by omega) hh
  obtain ⟨arr2, hrun2, len2, _⟩ :=
    parallelQuickSort_spec _ arr1 (l : Int) ((p : Int) - 1) rfl (fun _ => ⟨by omega, by omega⟩)
  obtain ⟨arr3, hrun3, _⟩ :=
    parallelQuickSort_spec _ arr2 ((p : Int) + 1) (h : Int) rfl (fun _ => ⟨by omega, by omega⟩)
  refine ⟨arr1, p, arr2, arr3, hrun, g1, g2, g3, hrun2, by omega, hrun3, ?_⟩
  rw [parallelQuickSort_step arr l h arr1 p (by omega) hrun, hrun2]
  exact hrun3

/-- The recursions of `mergeSort`, `quickSort` and `parallelQuickSort` are
well-founded, so each of the three returns on every well-formed input.  For `len(arr) ≥ 2` both halves `arr[:len/2]` and
`arr[len/2:]` that `mergeSort` recurses on are strictly shorter than `arr`;
the pivot `arr[len/2]` of `quickSort` lands in the equal bucket, so the less
and greater buckets are strictly shorter than `arr`; for `0 ≤ low < high <
len(arr)` the index `p` returned by `partition` makes the ranges `[low, p-1]`
and `[p+1, high]` of `parallelQuickSort` strictly smaller than `[low, high]`,
both recursive calls return, and so does every call on an in-bounds range. -/
theorem sort_recursions_well_founded (arr : List Int) :
    (2 ≤ arr.length →
      (arr.take (arr.length / 2)).length < arr.length ∧
        (arr.drop (arr.length / 2)).length < arr.length ∧
        mergeSort arr =
          merge (mergeSort (arr.take (arr.length / 2)))
            (mergeSort (arr.drop (arr.length / 2)))) ∧
      (∀ pivot : Int, 2 ≤ arr.length → arr[arr.length / 2]? = some pivot →
        pivot ∈ (buckets pivot arr).2.1 ∧
          (buckets pivot arr).1.length < arr.length ∧
          (buckets pivot arr).2.2.length < arr.length ∧
          quickSort arr =
            (quickSort (buckets pivot arr).1 ++ (buckets pivot arr).2.1)
              ++ quickSort (buckets pivot arr).2.2) ∧
      (∀ low high : Int, 0 ≤ low → low < high → high < arr.length →
        ∃ (arr1 : List Int) (p : Int) (arr2 arr3 : List Int),
          partition arr low high = some (arr1, p) ∧
          0 ≤ (p - 1) - low + 1 ∧ (p - 1) - low + 1 < high - low + 1 ∧
          0 ≤ high - (p + 1) + 1 ∧ high - (p + 1) + 1 < high - low + 1 ∧
          parallelQuickSort arr1 low (p - 1) = some arr2 ∧
          parallelQuickSort arr2 (p + 1) high = some arr3 ∧
          parallelQuickSort arr low high = some arr3) ∧
      (∀ low high : Int, (low < high → 0 ≤ low ∧ high < arr.length) →
        ∃ out : List Int, parallelQuickSort arr low high = some out) := by
  refine ⟨?_, ?_, ?_, ?_⟩
  · intro h2
    refine ⟨?_, ?_, mergeSort_unfold arr (by omega)⟩
    · rw [List.length_take]
      omega
    · rw [List.length_drop]
      omega
  · intro pivot h2 hp
    have hm : arr.length / 2 < arr.length := by omega
    have e : arr[arr.length / 2] = pivot := by
      rw [List.getElem?_eq_getElem hm] at hp
      exact Option.some.inj hp
    subst e
    refine ⟨?_, buckets_left_lt arr hm, buckets_right_lt arr hm, ?_⟩
    · rw [buckets_eq]
      exact List.mem_filter.mpr ⟨List.getElem_mem _, by simp⟩
    · rw [quickSort_unfold arr (by omega) hm, buckets_eq]
  · intro low high h0 hlt hh
    obtain ⟨l, rfl⟩ := Int.eq_ofNat_of_zero_le h0
    obtain ⟨h, rfl⟩ := Int.eq_ofNat_of_zero_le (by omega : (0 : Int) ≤ high)
    obtain ⟨arr1, p, arr2, arr3, hrun, g1, g2, _, hrun2, _, hrun3, hrun4⟩ :=
      parallelQuickSort_calls arr l h (by omega) (by omega)
    exact ⟨arr1, (p : Int), arr2, arr3, hrun, by omega, by omega, by omega, by omega, hrun2,
      hrun3, hrun4⟩
  · intro low high hb
    obtain ⟨out, hrun, _⟩ := parallelQuickSort_spec _ arr low high rfl hb
    exact ⟨out, hrun⟩

theorem sort_recursions_well_founded_witness :
    (2 ≤ ([3, 1, 2] : List Int).length ∧
        (([3, 1, 2] : List Int).take (([3, 1, 2] : List Int).length / 2)).length
          < ([3, 1, 2] : List Int).length) ∧
      (([3, 1, 2] : List Int)[([3, 1, 2] : List Int).length / 2]? = some 1 ∧
        (buckets 1 [3, 1, 2]).1.length < ([3, 1, 2] : List Int).length) ∧
      ((0 : Int) ≤ 0 ∧ (0 : Int) < 2 ∧ (2 : Int) < ([3, 1, 2] : List Int).length ∧
        ∃ out : List Int, parallelQuickSort [3, 1, 2] 0 2 = some out) :=
  ⟨⟨by decide, ((sort_recursions_well_founded [3, 1, 2]).1 (by decide)).1⟩,
    ⟨by decide, ((sort_recursions_well_founded [3, 1, 2]).2.1 1 (by decide) (by decide)).2.1⟩,
    ⟨by decide, by decide, by decide,
      (sort_recursions_well_founded [3, 1, 2]).2.2.2 0 2 (fun _ => ⟨by decide, by decide⟩)⟩⟩

/-! ## Every index used is in range -/

theorem idx_ne_none_iff (arr : List Int) (k : Int) :
    idx arr k ≠ none ↔ (0 ≤ k ∧ k < arr.length) := by
  by_cases h0 : 0 ≤ k
  · obtain ⟨n, rfl⟩ := Int.eq_ofNat_of_zero_le h0
    rw [idx_natCast]
    by_cases hn : n < arr.length
    · rw [List.getElem?_eq_getElem hn]
      simp
      omega
    · rw [List.getElem?_eq_none (by omega)]
      simp
      omega
  · rw [idx_neg arr k (by omega)]
    simp
    omega

theorem swap_ne_none_iff (arr : List Int) (a b : Int) :
    swap arr a b ≠ none ↔ (idx arr a ≠ none ∧ idx arr b ≠ none) := by
  unfold swap
  cases idx arr a <;> cases idx arr b <;> simp

/-- C16: an index expression `arr[k]` returns (does not panic) exactly when
`0 ≤ k < len(arr)`, and the exchange `arr[a], arr[b] = arr[b], arr[a]` exactly
when both indices are in that range; with this, every call
`parallelQuickSort(arr, low, high)` with `0 ≤ low, high < len(arr)`, and the
top-level call `parallelQuickSort(arr, 0, len(arr)-1)` on any `arr`, the
empty one included, returns without a panic, so that every read and write of
`parallelQuickSort` and `partition` uses an index inside `[0, len(arr)-1]`.
When `low < high`, `partition` is called in bounds and returns `p` with
`low-1 ≤ p-1` and `p+1 ≤ high+1`, and both recursive calls return; a call
whose arguments do not satisfy `low < high`, whatever they are, indexes
nothing and returns `arr` as it is. -/
theorem parallelQuickSort_in_bounds (arr : List Int) :
    (∀ k : Int, idx arr k ≠ none ↔ (0 ≤ k ∧ k < arr.length)) ∧
      (∀ a b : Int, swap arr a b ≠ none ↔
        ((0 ≤ a ∧ a < arr.length) ∧ (0 ≤ b ∧ b < arr.length))) ∧
      (∀ low high : Int, 0 ≤ low → low < arr.length → 0 ≤ high → high < arr.length →
        (∃ out : List Int, parallelQuickSort arr low high = some out) ∧
        (low < high →
          ∃ (arr1 : List Int) (p : Int) (arr2 arr3 : List Int),
            partition arr low high = some (arr1, p) ∧
            low - 1 ≤ p - 1 ∧ p + 1 ≤ high + 1 ∧
            arr1.length = arr.length ∧
            parallelQuickSort arr1 low (p - 1) = some arr2 ∧
            arr2.length = arr.length ∧
            parallelQuickSort arr2 (p + 1) high = some arr3)) ∧
      (∀ low high : Int, ¬ low < high → parallelQuickSort arr low high = some arr) ∧
      (∃ out : List Int, parallelQuickSort arr 0 ((arr.length : Int) - 1) = some out) := by
  refine ⟨idx_ne_none_iff arr, ?_, ?_, fun low high h => parallelQuickSort_base arr low high h,
    ?_⟩
  · intro a b
    rw [swap_ne_none_iff, idx_ne_none_iff, idx_ne_none_iff]
  · intro low high h0 hl h1 hh
    constructor
    · obtain ⟨out, hrun, _⟩ :=
        parallelQuickSort_spec _ arr low high rfl (fun _ => ⟨h0, hh⟩)
      exact ⟨out, hrun⟩
    · intro hlt
      obtain ⟨l, rfl⟩ := Int.eq_ofNat_of_zero_le h0
      obtain ⟨h, rfl⟩ := Int.eq_ofNat_of_zero_le h1
      obtain ⟨arr1, p, arr2, arr3, hrun, g1, g2, len1, hrun2, len2, hrun3, _⟩ :=
        parallelQuickSort_calls arr l h (by omega) (by omega)
      exact ⟨arr1, (p : Int), arr2, arr3, hrun, by omega, by omega, len1, hrun2, len2, hrun3⟩
  · obtain ⟨out, hrun, _⟩ :=
      parallelQuickSort_spec _ arr 0 ((arr.length : Int) - 1) rfl
        (fun _ => ⟨le_refl _, by omega⟩)
    exact ⟨out, hrun⟩

theorem parallelQuickSort_in_bounds_witness :
    ((0 : Int) ≤ 1 ∧ (1 : Int) < ([5, 3, 9, 1] : List Int).length ∧ (0 : Int) ≤ 3 ∧
        (3 : Int) < ([5, 3, 9, 1] : List Int).length) ∧
      ∃ out : List Int, parallelQuickSort [5, 3, 9, 1] 1 3 = some out :=
  ⟨by decide,
    ((parallelQuickSort_in_bounds [5, 3, 9, 1]).2.2.1 1 3 (by decide) (by decide) (by decide)
      (by decide)).1⟩

/-! ## The fold of `mergeSortedChunks` -/

/-- C17: `mergeSortedChunks` returns the empty sequence for an empty list of
chunks and otherwise folds the chunks left to right with `merge`, starting
from the first one: `merge(...merge(merge(c0, c1), c2)..., ck)`; when every
chunk is non-decreasing the result is non-decreasing and a permutation of the
concatenation of all chunks. -/
theorem mergeSortedChunks_fold :
    mergeSortedChunks [] = [] ∧
      (∀ (c0 : List Int) (rest : List (List Int)),
        mergeSortedChunks (c0 :: rest) = rest.foldl merge c0) ∧
      (∀ c0 c1 c2 c3 : List Int,
        mergeSortedChunks [c0] = c0 ∧ mergeSortedChunks [c0, c1] = merge c0 c1 ∧
          mergeSortedChunks [c0, c1, c2] = merge (merge c0 c1) c2 ∧
          mergeSortedChunks [c0, c1, c2, c3] = merge (merge (merge c0 c1) c2) c3) ∧
      (∀ chunks : List (List Int), chunks ≠ [] →
        (∀ c ∈ chunks, c.Sorted (fun a b => a ≤ b)) →
        (mergeSortedChunks chunks).Sorted (fun a b => a ≤ b) ∧
          (mergeSortedChunks chunks).Perm chunks.flatten) := by
  refine ⟨rfl, fun _ _ => rfl, fun _ _ _ _ => ⟨rfl, rfl, rfl, rfl⟩, ?_⟩
  intro chunks _ hall
  exact mergeSortedChunks_sorted_perm chunks hall

theorem mergeSortedChunks_fold_witness :
    ([[1, 4], [2, 3], [0, 5]] : List (List Int)) ≠ [] ∧
      (∀ c ∈ ([[1, 4], [2, 3], [0, 5]] : List (List Int)), c.Sorted (fun a b => a ≤ b)) ∧
      (mergeSortedChunks [[1, 4], [2, 3], [0, 5]]).Sorted (fun a b => a ≤ b) ∧
      (mergeSortedChunks [[1, 4], [2, 3], [0, 5]]).Perm
        ([[1, 4], [2, 3], [0, 5]] : List (List Int)).flatten :=
  ⟨by decide, by decide,
    mergeSortedChunks_fold.2.2.2 [[1, 4], [2, 3], [0, 5]] (by decide) (by decide)⟩

/-! ## When the slices of `chunkArray` are valid -/

theorem slice_some_iff (arr : List Int) (start end_ : Nat) :
    (∃ chunk, slice arr start end_ = some chunk) ↔ (start ≤ end_ ∧ end_ ≤ arr.length) := by
  unfold slice
  by_cases h : start ≤ end_ ∧ end_ ≤ arr.length
  · simp [h]
  · simp only [h, if_false, iff_false]
    rintro ⟨chunk, hc⟩
    cases hc

/-- C19: for `numChunks = P ≥ 1` and `c = (n + P - 1) / P`, every slice
expression `arr[i*c : min((i+1)*c, n)]` of `chunkArray`, `i < P`, is valid
(`start ≤ end ≤ n`) if and only if `(P - 1) * c ≤ n`, and `chunkArray`
returns if and only if that holds; when it fails, some chunk `i < P` has
`start > end`, its slice expression is out of range and `chunkArray`
panics. -/
theorem chunkArray_valid_iff (arr : List Int) (P : Nat) (hP : 1 ≤ P) :
    ((∀ i, i < P →
          i * ((arr.length + P - 1) / P) ≤ min ((i + 1) * ((arr.length + P - 1) / P)) arr.length ∧
            min ((i + 1) * ((arr.length + P - 1) / P)) arr.length ≤ arr.length) ↔
        (P - 1) * ((arr.length + P - 1) / P) ≤ arr.length) ∧
      ((∀ i, i < P → ∃ chunk, slice arr (i * ((arr.length + P - 1) / P))
          (min ((i + 1) * ((arr.length + P - 1) / P)) arr.length) = some chunk) ↔
        (P - 1) * ((arr.length + P - 1) / P) ≤ arr.length) ∧
      ((∃ chunks, chunkArray arr P = some chunks) ↔
        (P - 1) * ((arr.length + P - 1) / P) ≤ arr.length) ∧
      (arr.length < (P - 1) * ((arr.length + P - 1) / P) →
        ∃ i, i < P ∧
          min ((i + 1) * ((arr.length + P - 1) / P)) arr.length
            < i * ((arr.length + P - 1) / P) ∧
          slice arr (i * ((arr.length + P - 1) / P))
            (min ((i + 1) * ((arr.length + P - 1) / P)) arr.length) = none ∧
          chunkArray arr P = none) := by
  generalize hc : (arr.length + P - 1) / P = c
  have key : (∀ i, i < P → i * c ≤ min ((i + 1) * c) arr.length ∧
      min ((i + 1) * c) arr.length ≤ arr.length) ↔ (P - 1) * c ≤ arr.length := by
    constructor
    · intro h
      have := (h (P - 1) (by omega)).1
      omega
    · intro h i hi
      have h1 : i * c ≤ (P - 1) * c := Nat.mul_le_mul_right c (by omega)
      have h2 : i * c ≤ (i + 1) * c := Nat.mul_le_mul_right c (by omega)
      omega
  refine ⟨key, ?_, ?_, ?_⟩
  · rw [← key]
    constructor
    · intro h i hi
      exact (slice_some_iff arr _ _).mp (h i hi)
    · intro h i hi
      exact (slice_some_iff arr _ _).mpr (h i hi)
  · constructor
    · rintro ⟨chunks, hrun⟩
      by_contra hbad
      have := chunkArray_none arr P (by rw [hc]; omega)
      rw [this] at hrun
      cases hrun
    · intro h
      obtain ⟨chunks, hrun, _⟩ := chunkArray_some arr P (by omega) (by rw [hc]; exact h)
      exact ⟨chunks, hrun⟩
  · intro hbad
    have h2 : (P - 1) * c ≤ (P - 1 + 1) * c := Nat.mul_le_mul_right c (by omega)
    have hlt : min ((P - 1 + 1) * c) arr.length < (P - 1) * c := by omega
    exact ⟨P - 1, by omega, hlt, slice_eq_none arr _ _ hlt,
      chunkArray_none arr P (by rw [hc]; exact hbad)⟩

theorem chunkArray_valid_iff_witness :
    1 ≤ 4 ∧
      ([1, 2, 3, 4, 5] : List Int).length
          < (4 - 1) * ((([1, 2, 3, 4, 5] : List Int).length + 4 - 1) / 4) ∧
      ∃ i, i < 4 ∧
        min ((i + 1) * ((([1, 2, 3, 4, 5] : List Int).length + 4 - 1) / 4))
            ([1, 2, 3, 4, 5] : List Int).length
          < i * ((([1, 2, 3, 4, 5] : List Int).length + 4 - 1) / 4) ∧
        slice [1, 2, 3, 4, 5]
          (i * ((([1, 2, 3, 4, 5] : List Int).length + 4 - 1) / 4))
          (min ((i + 1) * ((([1, 2, 3, 4, 5] : List Int).length + 4 - 1) / 4))
            ([1, 2, 3, 4, 5] : List Int).length) = none ∧
        chunkArray [1, 2, 3, 4, 5] 4 = none :=
  ⟨by decide, by decide,
    (chunkArray_valid_iff [1, 2, 3, 4, 5] 4 (by decide)).2.2.2 (by decide)⟩

/-! ## Ten elements in four chunks -/

/-- C15: for every 10-element sequence `S`, `chunkArray(S, 4)` returns four
chunks of sizes `[3, 3, 3, 1]` whose concatenation is `S`; `mergeSort` on each
chunk followed by `mergeSortedChunks` gives a non-decreasing permutation of
`S`, which is what `mergeSortConcurrent` returns with `numCores = 4`. -/
theorem chunkArray_ten_by_four (S : List Int) (h : S.length = 10) :
    ∃ chunks : List (List Int),
      chunkArray S 4 = some chunks ∧
      chunks.map List.length = [3, 3, 3, 1] ∧
      chunks.flatten = S ∧
      (mergeSortedChunks (chunks.map mergeSort)).Sorted (fun a b => a ≤ b) ∧
      (mergeSortedChunks (chunks.map mergeSort)).Perm S ∧
      mergeSortConcurrent S 4 = some (mergeSortedChunks (chunks.map mergeSort)) := by
  have hc : (S.length + 4 - 1) / 4 = 3 := by rw [h]
  obtain ⟨chunks, hrun, hlen, hflat, hget⟩ :=
    chunkArray_some S 4 (by omega) (by rw [hc, h]; decide)
  have hall : ∀ c ∈ chunks.map mergeSort, c.Sorted (fun a b => a ≤ b) := by
    intro c hc
    obtain ⟨d, _, rfl⟩ := List.mem_map.mp hc
    exact (mergeSort_sorted_perm _ d rfl).1
  obtain ⟨s1, s2⟩ := mergeSortedChunks_sorted_perm _ hall
  refine ⟨chunks, hrun, ?_, hflat, s1, ?_, ?_⟩
  · apply List.ext_getElem?
    intro k
    rw [List.getElem?_map]
    by_cases hk : k < 4
    · rw [hget k hk, hc, h]
      have hk' : k = 0 ∨ k = 1 ∨ k = 2 ∨ k = 3 := by omega
      rcases hk' with rfl | rfl | rfl | rfl <;>
        simp [List.length_take, List.length_drop, h]
    · rw [List.getElem?_eq_none (by omega), List.getElem?_eq_none (by simp; omega)]
      rfl
  · have := s2.trans (map_mergeSort_flatten_perm chunks)
    rwa [hflat] at this
  · have hl : ¬ S.length ≤ 1 := by omega
    simp [mergeSortConcurrent, hl, hrun]

theorem chunkArray_ten_by_four_witness :
    ([9, 8, 7, 6, 5, 4, 3, 2, 1, 0] : List Int).length = 10 ∧
      ∃ chunks : List (List Int),
        chunkArray [9, 8, 7, 6, 5, 4, 3, 2, 1, 0] 4 = some chunks ∧
        chunks.map List.length = [3, 3, 3, 1] ∧
        chunks.flatten = [9, 8, 7, 6, 5, 4, 3, 2, 1, 0] ∧
        (mergeSortedChunks (chunks.map mergeSort)).Sorted (fun a b => a ≤ b) ∧
        (mergeSortedChunks (chunks.map mergeSort)).Perm [9, 8, 7, 6, 5, 4, 3, 2, 1, 0] ∧
        mergeSortConcurrent [9, 8, 7, 6, 5, 4, 3, 2, 1, 0] 4
          = some (mergeSortedChunks (chunks.map mergeSort)) :=
  ⟨by decide, chunkArray_ten_by_four [9, 8, 7, 6, 5, 4, 3, 2, 1, 0] (by decide)⟩

/-! ## Already sorted input -/

theorem parallelQuickSortDepth_base (arr : List Int) (low high : Int) (h : ¬ low < high) :
    parallelQuickSortDepth arr low high = some (arr, 0) := by
  rw [parallelQuickSortDepth]
  simp only [h, dite_false]

theorem parallelQuickSortDepth_step (arr : List Int) (low high : Int) (arr1 : List Int)
    (p : Int) (h : low < high) (hp : partition arr low high = some (arr1, p)) :
    parallelQuickSortDepth arr low high =
      (parallelQuickSortDepth arr1 low (p - 1)).bind (fun r1 =>
        (parallelQuickSortDepth r1.1 (p + 1) high).bind (fun r2 =>
          some (r2.1, 1 + max r1.2 r2.2))) := by
  rw [parallelQuickSortDepth]
  simp only [h, dite_true]
  split
  · rename_i heq
    rw [hp] at heq
    cases heq
  · rename_i arr1' p' heq
    rw [hp] at heq
    cases heq
    cases h1 : parallelQuickSortDepth arr1 low (p - 1) with
    | none => rfl
    | some r1 =>
      obtain ⟨a2, d1⟩ := r1
      simp only [Option.some_bind]
      cases h2 : parallelQuickSortDepth a2 (p + 1) high with
      | none => rfl
      | some r2 =>
        obtain ⟨a3, d2⟩ := r2
        rfl

/-- The counter is a ghost: dropping it gives `parallelQuickSort`. -/
theorem parallelQuickSortDepth_erase (n : Nat) :
    ∀ (arr : List Int) (low high : Int), (high - low).toNat = n →
      (parallelQuickSortDepth arr low high).map Prod.fst = parallelQuickSort arr low high := by
  induction n using Nat.strong_induction_on with
  | _ n ih =>
    intro arr low high hn
    by_cases hlt : low < high
    · cases hp : partition arr low high with
      | none =>
        rw [parallelQuickSort_panic arr low high hlt hp, parallelQuickSortDepth]
        simp only [hlt, dite_true]
        split
        · rfl
        · rename_i a1 p1 heq
          rw [hp] at heq
          cases heq
      | some r =>
        obtain ⟨arr1, p⟩ := r
        have hb := partition_bounds arr low high arr1 p (by omega) hp
        rw [parallelQuickSort_step arr low high arr1 p hlt hp,
          parallelQuickSortDepth_step arr low high arr1 p hlt hp,
          ← ih ((p - 1) - low).toNat (by omega) arr1 low (p - 1) rfl]
        cases h1 : parallelQuickSortDepth arr1 low (p - 1) with
        | none => rfl
        | some r1 =>
          simp only [Option.some_bind, Option.map_some']
          rw [← ih (high - (p + 1)).toNat (by omega) r1.1 (p + 1) high rfl]
          cases h2 : parallelQuickSortDepth r1.1 (p + 1) high with
          | none => rfl
          | some r2 => rfl
    · rw [parallelQuickSort_base arr low high hlt, parallelQuickSortDepth_base arr low high hlt]
      rfl

theorem swap_self (arr : List Int) (j : Nat) (hj : j < arr.length) :
    swap arr (j : Int) (j : Int) = some arr := by
  rw [swap_eq arr j j hj hj]
  congr 1
  apply List.ext_getElem?
  intro k
  rw [swapped_getElem? arr j j hj hj]
  by_cases hk : k = j
  · simp [hk]
  · simp [hk]

theorem partitionLoop_sorted (pivot : Int) (high : Nat) (n : Nat) :
    ∀ (arr : List Int) (j : Nat), high - j = n → j ≤ high → high ≤ arr.length →
      (∀ k v, j ≤ k → k < high → arr[k]? = some v → v < pivot) →
      partitionLoop pivot (high : Int) arr (j : Int) (j : Int) = some (arr, (high : Int)) := by
  induction n with
  | zero =>
    intro arr j hn hj hlen _
    have e : j = high := by omega
    subst e
    exact partitionLoop_done pivot _ arr _ _ (by omega)
  | succ n ih =>
    intro arr j hn hj hlen hlt
    have hjh : (j : Int) < (high : Int) := by omega
    have hjl : j < arr.length := by omega
    have cj : (j : Int) + 1 = ((j + 1 : Nat) : Int) := by push_cast; rfl
    have hv : arr[j] < pivot := hlt j _ (le_refl _) (by omega) (List.getElem?_eq_getElem hjl)
    rw [partitionLoop]
    simp only [hjh, if_true, idx_eq_some arr j hjl, hv, swap_self arr j hjl, cj]
    exact ih arr (j + 1) (by omega) (by omega) hlen
      (fun k v hk1 hk2 hkv => hlt k v (by omega) hk2 hkv)

theorem partition_sorted (arr : List Int) (l h : Nat) (hlh : l ≤ h) (hh : h < arr.length)
    (hinc : ∀ a b : Nat, l ≤ a → a < b → b ≤ h →
      ∀ x y, arr[a]? = some x → arr[b]? = some y → x < y) :
    partition arr (l : Int) (h : Int) = some (arr, (h : Int)) := by
  have hloop := partitionLoop_sorted arr[h] h (h - l) arr l rfl hlh (by omega)
    (fun k v hk1 hk2 hkv => hinc k h hk1 hk2 (le_refl _) v arr[h] hkv
      (List.getElem?_eq_getElem hh))
  unfold partition
  simp only [idx_eq_some arr h hh, hloop, swap_self arr h hh]

theorem parallelQuickSortDepth_sorted (n : Nat) :
    ∀ (arr : List Int) (l h : Nat), h - l = n → l ≤ h → h < arr.length →
      (∀ a b : Nat, l ≤ a → a < b → b ≤ h →
        ∀ x y, arr[a]? = some x → arr[b]? = some y → x < y) →
      parallelQuickSortDepth arr (l : Int) (h : Int) = some (arr, h - l) := by
  induction n with
  | zero =>
    intro arr l h hn hlh hh _
    have e : h - l = 0 := hn
    rw [parallelQuickSortDepth_base arr _ _ (by omega), e]
  | succ n ih =>
    intro arr l h hn hlh hh hinc
    have hlt : (l : Int) < (h : Int) := by omega
    have hp := partition_sorted arr l h hlh hh hinc
    have ch : (h : Int) - 1 = ((h - 1 : Nat) : Int) := by omega
    have hleft := ih arr l (h - 1) (by omega) (by omega) (by omega)
      (fun a b ha hab hb => hinc a b ha hab (by omega))
    rw [parallelQuickSortDepth_step arr l h arr h hlt hp, ch, hleft]
    simp only [Option.some_bind]
    rw [parallelQuickSortDepth_base arr _ _ (by omega)]
    simp only [Option.some_bind, Option.some.injEq, Prod.mk.injEq, true_and]
    omega

/-- C18: on already sorted input the last-index pivot rule is maximally
unbalanced: for `0 ≤ low ≤ high < len(arr)` with `arr[low..high]` strictly
increasing, `partition(arr, low, high)` returns `high` and leaves `arr`
unchanged; so `parallelQuickSort(arr, low, high)` recurses on `[low, high-1]`
with the empty right range `[high+1, high]`, leaves `arr` unchanged, and its
depth of nested partitioning calls is `high - low`, that is `n - 1` on a whole
strictly increasing sequence of length `n ≥ 1`. -/
theorem partition_sorted_input (arr : List Int) (low high : Int)
    (h0 : 0 ≤ low) (hlh : low ≤ high) (hh : high < arr.length)
    (hinc : ∀ a b : Int, low ≤ a → a < b → b ≤ high →
      ∀ x y, idx arr a = some x → idx arr b = some y → x < y) :
    partition arr low high = some (arr, high) ∧
      (low < high →
        parallelQuickSort arr low high =
          (parallelQuickSort arr low (high - 1)).bind
            (fun arr2 => parallelQuickSort arr2 (high + 1) high) ∧
        parallelQuickSort arr low (high - 1) = some arr ∧
        parallelQuickSort arr (high + 1) high = some arr) ∧
      parallelQuickSort arr low high = some arr ∧
      parallelQuickSortDepth arr low high = some (arr, (high - low).toNat) ∧
      (low = 0 → high = (arr.length : Int) - 1 →
        parallelQuickSortDepth arr 0 ((arr.length : Int) - 1) = some (arr, arr.length - 1)) := by
  obtain ⟨l, rfl⟩ := Int.eq_ofNat_of_zero_le h0
  obtain ⟨h, rfl⟩ := Int.eq_ofNat_of_zero_le (le_trans h0 hlh)
  have hlh1 : l ≤ h := by omega
  have hh1 : h < arr.length := by omega
  have hincN : ∀ a b : Nat, l ≤ a → a < b → b ≤ h →
      ∀ x y, arr[a]? = some x → arr[b]? = some y → x < y := by
    intro a b ha hab hb x y hx hy
    exact hinc a b (by omega) (by omega) (by omega) x y (by rw [idx_natCast]; exact hx)
      (by rw [idx_natCast]; exact hy)
  have hp := partition_sorted arr l h hlh1 hh1 hincN
  have hd := parallelQuickSortDepth_sorted _ arr l h rfl hlh1 hh1 hincN
  have hrun : parallelQuickSort arr (l : Int) (h : Int) = some arr := by
    rw [← parallelQuickSortDepth_erase _ arr _ _ rfl, hd]
    rfl
  have e : ((h : Int) - (l : Int)).toNat = h - l := by omega
  refine ⟨hp, ?_, hrun, by rw [e]; exact hd, ?_⟩
  · intro hlt
    refine ⟨parallelQuickSort_step arr l h arr h hlt hp, ?_,
      parallelQuickSort_base arr _ _ (by omega)⟩
    have ch : (h : Int) - 1 = ((h - 1 : Nat) : Int) := by omega
    have hd1 := parallelQuickSortDepth_sorted _ arr l (h - 1) rfl (by omega) (by omega)
      (fun a b ha hab hb => hincN a b ha hab (by omega))
    rw [ch, ← parallelQuickSortDepth_erase _ arr _ _ rfl, hd1]
    rfl
  · intro hl0 hhn
    have hl1 : l = 0 := by omega
    have hh2 : h = arr.length - 1 := by omega
    subst hl1
    have hd0 := hd
    simp only [Nat.cast_zero, Nat.sub_zero] at hd0
    rw [← hhn, hd0, hh2]

theorem partition_sorted_input_witness :
    (0 : Int) ≤ 0 ∧ (0 : Int) ≤ 3 ∧ (3 : Int) < ([1, 2, 5, 8] : List Int).length ∧
      parallelQuickSortDepth [1, 2, 5, 8] 0 3 = some ([1, 2, 5, 8], ((3 : Int) - 0).toNat) :=
  ⟨by decide, by decide, by decide,
    (partition_sorted_input [1, 2, 5, 8] 0 3 (by decide) (by decide) (by decide) (by
      intro a b ha hab hb x y hx hy
      have ha' : a = 0 ∨ a = 1 ∨ a = 2 := by omega
      have hb' : b = 1 ∨ b = 2 ∨ b = 3 := by omega
      rcases ha' with rfl | rfl | rfl <;> rcases hb' with rfl | rfl | rfl <;>
        simp [idx] at hx hy <;> omega)).2.2.2.1⟩

/-! ## The two sub-sorts commute -/

theorem getElem?_segment (arr : List Int) (lo hi k : Nat) (h1 : lo ≤ k) (h2 : k < hi) :
    ((arr.drop lo).take (hi - lo))[k - lo]? = arr[k]? := by
  rw [List.getElem?_take]
  have h : k - lo < hi - lo := by omega
  simp only [h, if_true, List.getElem?_drop]
  rw [show lo + (k - lo) = k by omega]

theorem segment_congr (a b : List Int) (lo hi : Nat)
    (h : ∀ k, lo ≤ k → k < hi → a[k]? = b[k]?) :
    (a.drop lo).take (hi - lo) = (b.drop lo).take (hi - lo) := by
  apply List.ext_getElem?
  intro n
  rw [List.getElem?_take, List.getElem?_take]
  by_cases hn : n < hi - lo
  · simp only [hn, if_true, List.getElem?_drop]
    exact h (lo + n) (by omega) (by omega)
  · simp only [hn, if_false]

theorem segment_sorted (arr : List Int) (lo hi : Nat)
    (h : ∀ (a b : Nat) (x y : Int), lo ≤ a → a ≤ b → b < hi →
      arr[a]? = some x → arr[b]? = some y → x ≤ y) :
    ((arr.drop lo).take (hi - lo)).Sorted (fun x y => x ≤ y) := by
  refine List.pairwise_iff_getElem.mpr ?_
  intro i j hi1 hj1 hij
  have hjlt : j < hi - lo := by
    have := hj1
    rw [List.length_take] at this
    omega
  have e1 := getElem?_segment arr lo hi (lo + i) (by omega) (by omega)
  have e2 := getElem?_segment arr lo hi (lo + j) (by omega) (by omega)
  rw [show lo + i - lo = i by omega, List.getElem?_eq_getElem hi1] at e1
  rw [show lo + j - lo = j by omega, List.getElem?_eq_getElem hj1] at e2
  exact h (lo + i) (lo + j) _ _ (by omega) (by omega) (by omega) e1.symm e2.symm

/-- Two arrays that agree on `[lo, hi)` and are each sorted there in place,
the rest being left alone, agree on `[lo, hi)` afterwards. -/
theorem sorted_segment_unique (A B X Y : List Int) (lo hi : Nat)
    (hagree : ∀ k, lo ≤ k → k < hi → A[k]? = B[k]?)
    (permX : X.Perm A) (frameX : ∀ k, (k < lo ∨ hi ≤ k) → X[k]? = A[k]?)
    (sortedX : ∀ (a b : Nat) (x y : Int), lo ≤ a → a ≤ b → b < hi →
      X[a]? = some x → X[b]? = some y → x ≤ y)
    (permY : Y.Perm B) (frameY : ∀ k, (k < lo ∨ hi ≤ k) → Y[k]? = B[k]?)
    (sortedY : ∀ (a b : Nat) (x y : Int), lo ≤ a → a ≤ b → b < hi →
      Y[a]? = some x → Y[b]? = some y → x ≤ y) :
    ∀ k, lo ≤ k → k < hi → X[k]? = Y[k]? := by
  have pX := segment_perm A X lo hi permX frameX
  have pY := segment_perm B Y lo hi permY frameY
  rw [← segment_congr A B lo hi hagree] at pY
  have e := sorted_perm_unique _ _ (segment_sorted X lo hi sortedX)
    (segment_sorted Y lo hi sortedY) (pX.trans pY.symm)
  intro k h1 h2
  rw [← getElem?_segment X lo hi k h1 h2, ← getElem?_segment Y lo hi k h1 h2, e]

/-- C20: the two sub-sorts of `parallelQuickSort` commute: for `0 ≤ low <
high < len(arr)` and `p` the index returned by `partition(arr, low, high)`,
running `parallelQuickSort` on `[low, p-1]` and then on `[p+1, high]` leaves
the array in exactly the state that running it on `[p+1, high]` first and on
`[low, p-1]` second does, and that state is the result of
`parallelQuickSort(arr, low, high)`. -/
theorem parallelQuickSort_subsorts_commute (arr : List Int) (low high : Int)
    (h0 : 0 ≤ low) (hlt : low < high) (hh : high < arr.length) :
    ∃ (arr1 : List Int) (p : Int) (a2 a3 b2 : List Int),
      partition arr low high = some (arr1, p) ∧
      parallelQuickSort arr1 low (p - 1) = some a2 ∧
      parallelQuickSort a2 (p + 1) high = some a3 ∧
      parallelQuickSort arr1 (p + 1) high = some b2 ∧
      parallelQuickSort b2 low (p - 1) = some a3 ∧
      parallelQuickSort arr low high = some a3 := by
  obtain ⟨l, rfl⟩ := Int.eq_ofNat_of_zero_le h0
  obtain ⟨h, rfl⟩ := Int.eq_ofNat_of_zero_le (by omega : (0 : Int) ≤ high)
  have hh1 : h < arr.length := by omega
  obtain ⟨arr1, p, hrun, g1, g2, g3, _⟩ := partition_spec arr l h (by omega) hh1
  obtain ⟨a2, runA2, lenA2, permA2, frameA2, sortedA2⟩ :=
    parallelQuickSort_spec _ arr1 (l : Int) ((p : Int) - 1) rfl (fun _ => ⟨by omega, by omega⟩)
  obtain ⟨a3, runA3, lenA3, permA3, frameA3, sortedA3⟩ :=
    parallelQuickSort_spec _ a2 ((p : Int) + 1) (h : Int) rfl (fun _ => ⟨by omega, by omega⟩)
  obtain ⟨b2, runB2, lenB2, permB2, frameB2, sortedB2⟩ :=
    parallelQuickSort_spec _ arr1 ((p : Int) + 1) (h : Int) rfl (fun _ => ⟨by omega, by omega⟩)
  obtain ⟨b3, runB3, lenB3, permB3, frameB3, sortedB3⟩ :=
    parallelQuickSort_spec _ b2 (l : Int) ((p : Int) - 1) rfl (fun _ => ⟨by omega, by omega⟩)
  have hleft : ∀ k, l ≤ k → k < p → a2[k]? = b3[k]? :=
    sorted_segment_unique arr1 b2 a2 b3 l p
      (fun k hk1 hk2 => (frameB2 k (Or.inl (by omega))).symm)
      permA2 (fun k hk => frameA2 k (by omega))
      (fun a b x y ha hab hb => sortedA2 a b x y (by omega) hab (by omega))
      permB3 (fun k hk => frameB3 k (by omega))
      (fun a b x y ha hab hb => sortedB3 a b x y (by omega) hab (by omega))
  have hright : ∀ k, p + 1 ≤ k → k < h + 1 → a3[k]? = b2[k]? :=
    sorted_segment_unique a2 arr1 a3 b2 (p + 1) (h + 1)
      (fun k hk1 hk2 => frameA2 k (Or.inr (by omega)))
      permA3 (fun k hk => frameA3 k (by omega))
      (fun a b x y ha hab hb => sortedA3 a b x y (by omega) hab (by omega))
      permB2 (fun k hk => frameB2 k (by omega))
      (fun a b x y ha hab hb => sortedB2 a b x y (by omega) hab (by omega))
  have e : b3 = a3 := by
    apply List.ext_getElem?
    intro k
    by_cases hk1 : l ≤ k ∧ k < p
    · rw [frameA3 k (Or.inl (by omega))]
      exact (hleft k hk1.1 hk1.2).symm
    · by_cases hk2 : p + 1 ≤ k ∧ k < h + 1
      · rw [frameB3 k (Or.inr (by omega))]
        exact (hright k hk2.1 hk2.2).symm
      · rw [frameB3 k (by omega), frameB2 k (by omega), frameA3 k (by omega),
          frameA2 k (by omega)]
  refine ⟨arr1, (p : Int), a2, a3, b2, hrun, runA2, runA3, runB2, e ▸ runB3, ?_⟩
  rw [parallelQuickSort_step arr l h arr1 p hlt hrun, runA2]
  exact runA3

theorem parallelQuickSort_subsorts_commute_witness :
    (0 : Int) ≤ 0 ∧ (0 : Int) < 4 ∧ (4 : Int) < ([4, 9, 1, 7, 5] : List Int).length ∧
      ∃ (arr1 : List Int) (p : Int) (a2 a3 b2 : List Int),
        partition [4, 9, 1, 7, 5] 0 4 = some (arr1, p) ∧
        parallelQuickSort arr1 0 (p - 1) = some a2 ∧
        parallelQuickSort a2 (p + 1) 4 = some a3 ∧
        parallelQuickSort arr1 (p + 1) 4 = some b2 ∧
        parallelQuickSort b2 0 (p - 1) = some a3 ∧
        parallelQuickSort [4, 9, 1, 7, 5] 0 4 = some a3 :=
  ⟨by decide, by decide, by decide,
    parallelQuickSort_subsorts_commute [4, 9, 1, 7, 5] 0 4 (by decide) (by decide) (by decide)⟩

/-! ## `mergeSortConcurrent` is not total -/

/-- C13, failing input: not every sort operation is total.  On the well-formed
input `S = [2, 7, 1, 8, 2]` with `numCores = 4`, `mergeSortConcurrent` panics
in `chunkArray` (chunk size 2, chunk 3 is the slice `arr[6:5]`) and returns
nothing, while `mergeSort`, `mergeSortConcorrente`, `quickSort`,
`quickSortConcorrente` and `parallelQuickSort` all return `[1, 2, 2, 7, 8]` on
that input; on an array of the 100000 elements that `main` sorts it panics
when `runtime.NumCPU()` is 330 (chunk size 304, chunk 329 is the slice
`arr[100016:100000]`). -/
theorem mergeSortConcurrent_not_total :
    mergeSortConcurrent [2, 7, 1, 8, 2] 4 = none ∧
      (¬ ∃ out : List Int, mergeSortConcurrent [2, 7, 1, 8, 2] 4 = some out) ∧
      slice [2, 7, 1, 8, 2] 6 5 = none ∧
      mergeSort [2, 7, 1, 8, 2] = [1, 2, 2, 7, 8] ∧
      mergeSortConcorrente [2, 7, 1, 8, 2] = [1, 2, 2, 7, 8] ∧
      quickSort [2, 7, 1, 8, 2] = [1, 2, 2, 7, 8] ∧
      quickSortConcorrente [2, 7, 1, 8, 2] = [1, 2, 2, 7, 8] ∧
      parallelQuickSort [2, 7, 1, 8, 2] 0 4 = some [1, 2, 2, 7, 8] ∧
      (100000 + 330 - 1) / 330 = 304 ∧ 100000 < 329 * 304 ∧
      mergeSortConcurrent (List.replicate 100000 0) 330 = none := by
  have hnone : mergeSortConcurrent [2, 7, 1, 8, 2] 4 = none := by decide
  have hms := mergeSort_sorted_perm _ [2, 7, 1, 8, 2] rfl
  have hm : mergeSort [2, 7, 1, 8, 2] = [1, 2, 2, 7, 8] :=
    sorted_perm_unique _ _ hms.1 (by decide) (hms.2.trans (by decide))
  obtain ⟨h1, h2, h3, h4⟩ := five_sorts_agree [2, 7, 1, 8, 2]
  have hbig : mergeSortConcurrent (List.replicate 100000 0) 330 = none := by
    rw [(mergeSortConcurrent_spec (List.replicate 100000 0) 330).2, List.length_replicate]
    exact ⟨by norm_num, Or.inr (by norm_num)⟩
  refine ⟨hnone, ?_, by decide, hm, h1.trans hm, h2.trans hm, h3.trans hm, ?_, by norm_num,
    by norm_num, hbig⟩
  · rintro ⟨out, hout⟩
    rw [hnone] at hout
    cases hout
  · have := h4
    rw [hm] at this
    exact this

end SortingComparison
